import Mathlib

/-!
Verification of the chunking / metadata-extraction core of the cylaw-study
repository (src/rag/chunker.py and src/rag/document_extractor.py).

Documents are modelled as lists of Unicode code points (`List Char`), which
matches Python `str` indexing/slicing semantics.  Regular-expression uses in
the source are limited to a handful of fixed patterns; each is modelled by a
dedicated scanning function with Python `re.search` / `re.sub` / `re.split`
leftmost-match semantics.  Python loops whose bound is not structural are
modelled with an explicit fuel argument set to the text length; the repository
spec itself mandates bounded iteration for these loops, and the termination
theorem below shows the bound is never reached.
-/

namespace CyLaw

abbrev Chars := List Char

/-- Python `str.isspace` / `\s` whitespace set (Unicode whitespace code points). -/
def isPyWs (c : Char) : Bool :=
  decide (c = ' ') || decide (c = '\t') || decide (c = '\n') || decide (c = '\r') ||
  decide (c = '\u000b') || decide (c = '\u000c') || decide (c = '\u001c') ||
  decide (c = '\u001d') || decide (c = '\u001e') || decide (c = '\u001f') ||
  decide (c = '\u0085') || decide (c = '\u00a0') || decide (c = '\u1680') ||
  (decide ('\u2000' ≤ c) && decide (c ≤ '\u200a')) ||
  decide (c = '\u2028') || decide (c = '\u2029') || decide (c = '\u202f') ||
  decide (c = '\u205f') || decide (c = '\u3000')

/-- C1 control range 0x80..0x9f (regex `[\x80-\x9f]` in the source). -/
def isC1 (c : Char) : Bool := decide (0x80 ≤ c.toNat) && decide (c.toNat ≤ 0x9f)

/-- ASCII decimal digit (`\d` in the source's path regexes; paths are ASCII). -/
def isDigit (c : Char) : Bool := decide ('0' ≤ c) && decide (c ≤ '9')

/-- Python `str.lstrip()`. -/
def lstrip (s : Chars) : Chars := s.dropWhile (fun c => isPyWs c)

/-- Python `str.rstrip()`. -/
def rstrip (s : Chars) : Chars := (s.reverse.dropWhile (fun c => isPyWs c)).reverse

/-- Python `str.strip()`. -/
def strip (s : Chars) : Chars := rstrip (lstrip s)

/-- Python `needle in haystack` substring test. -/
def containsSubB (needle : Chars) : Chars → Bool
  | [] => needle.isEmpty
  | c :: rest => needle.isPrefixOf (c :: rest) || containsSubB needle rest

/-- Python `str.split(sep)` for a one-character separator (keeps empty parts). -/
def splitOnChar (x : Char) : Chars → List Chars
  | [] => [[]]
  | c :: rest =>
    if c = x then [] :: splitOnChar x rest
    else
      match splitOnChar x rest with
      | [] => [[c]]
      | l :: ls => (c :: l) :: ls

/-- Inverse of `splitOnChar '\n'`: joins lines with a newline. -/
def joinLines : List Chars → Chars
  | [] => []
  | [l] => l
  | l :: ls => l ++ '\n' :: joinLines ls

/-- Greek section marker ΑΝΑΦΟΡΕΣ (references section). -/
def refsMarker : Chars := ("ΑΝΑΦΟΡΕΣ").data

/-- Greek section marker ΚΕΙΜΕΝΟ ΑΠΟΦΑΣΗΣ (decision text). -/
def decisionMarker : Chars := ("ΚΕΙΜΕΝΟ ΑΠΟΦΑΣΗΣ").data

/-- Greek section marker ΝΟΜΙΚΗ ΠΤΥΧΗ (legal analysis). -/
def legalMarker : Chars := ("ΝΟΜΙΚΗ ΠΤΥΧΗ").data

/-- Greek keyword ΔΙΚΑΙΟΔΟΣΙΑ (jurisdiction). -/
def dikaiodosia : Chars := ("ΔΙΚΑΙΟΔΟΣΙΑ").data

/-- Match of the regex `\*{0,4}MARKER\*{0,4}` (optionally followed by `:?` when
`colon` is set) anchored at the start of `s`; returns the matched length.
Greedy/backtracking semantics collapse to: the leading star run must have
length at most 4 and be followed by the marker; the trailing star run is
capped at 4; an optional colon is consumed last. -/
def matchStarsAt (marker : Chars) (colon : Bool) (s : Chars) : Option Nat :=
  let j := (s.takeWhile (fun c => decide (c = '*'))).length
  if j ≤ 4 ∧ marker.isPrefixOf (s.drop j) = true then
    let rest := s.drop (j + marker.length)
    let t := min 4 ((rest.takeWhile (fun c => decide (c = '*'))).length)
    let rest2 := rest.drop t
    let k := if colon = true ∧ rest2.head? = some ':' then 1 else 0
    some (j + marker.length + t + k)
  else none

/-- Leftmost-match scan (Python `re.search`): returns (start, length). -/
def searchAux (f : Chars → Option Nat) : Chars → Nat → Option (Nat × Nat)
  | s, i =>
    match f s with
    | some len => some (i, len)
    | none =>
      match s with
      | [] => none
      | _ :: rest => searchAux f rest (i + 1)

def searchPat (f : Chars → Option Nat) (s : Chars) : Option (Nat × Nat) := searchAux f s 0

/-- `re.search(r"\*{0,4}ΑΝΑΦΟΡΕΣ\*{0,4}", s)`. -/
def refsSearch (s : Chars) : Option (Nat × Nat) := searchPat (matchStarsAt refsMarker false) s

/-- `re.search(r"\*{0,4}ΚΕΙΜΕΝΟ ΑΠΟΦΑΣΗΣ\*{0,4}:?", s)` (used by `_strip_references`). -/
def bodySearchColon (s : Chars) : Option (Nat × Nat) := searchPat (matchStarsAt decisionMarker true) s

/-- `re.split(r"\*{0,4}ΚΕΙΜΕΝΟ ΑΠΟΦΑΣΗΣ\*{0,4}", s, maxsplit=1)`'s splitting match
(no optional colon; used by `_extract_jurisdiction`). -/
def bodySearchPlain (s : Chars) : Option (Nat × Nat) := searchPat (matchStarsAt decisionMarker false) s

/-- `_strip_references` from src/rag/chunker.py. -/
def stripReferences (s : Chars) : Chars :=
  match refsSearch s with
  | none =>
    match bodySearchColon s with
    | some (bs, blen) => s.take bs ++ s.drop (bs + blen)
    | none => s
  | some (rs, _) =>
    let beforeRefs := rstrip (s.take rs)
    match bodySearchColon s with
    | some (bs, blen) =>
      if rs < bs then
        let afterBody := lstrip (s.drop (bs + blen))
        if beforeRefs = [] then afterBody else beforeRefs ++ '\n' :: '\n' :: afterBody
      else beforeRefs
    | none => beforeRefs

/-- Split at the first occurrence of `x`: `some (before, after)`, `x` excluded. -/
def splitAtChar (x : Char) : Chars → Option (Chars × Chars)
  | [] => none
  | c :: rest =>
    if c = x then some ([], rest)
    else
      match splitAtChar x rest with
      | none => none
      | some (a, b) => some (c :: a, b)

/-- Match of the link regex `\[([^\]]*)\]\([^)]*\)` anchored at the start of `s`:
returns (captured label, remainder after the match). -/
def matchLinkAt (s : Chars) : Option (Chars × Chars) :=
  match s with
  | '[' :: rest =>
    match splitAtChar ']' rest with
    | none => none
    | some (label, r1) =>
      match r1 with
      | '(' :: r2 =>
        match splitAtChar ')' r2 with
        | none => none
        | some (_, r3) => some (label, r3)
      | _ => none
  | _ => none

/-- Does the link regex match anywhere in `s` (`_link_re.search`)? -/
def hasLink : Chars → Bool
  | [] => false
  | c :: rest => (matchLinkAt (c :: rest)).isSome || hasLink rest

/-- One pass of `_link_re.sub(r"\1", text)`: replace all non-overlapping matches,
scanning left to right.  Fuel-structured; each step consumes at least one input
character, so fuel = input length (as used in `linkSubOnce`) never runs out. -/
def linkSubAllF : Nat → Chars → Chars
  | 0, s => s
  | fuel + 1, s =>
    match s with
    | [] => []
    | c :: rest =>
      match matchLinkAt (c :: rest) with
      | some (label, rem) => label ++ linkSubAllF fuel rem
      | none => c :: linkSubAllF fuel rest

def linkSubOnce (s : Chars) : Chars := linkSubAllF s.length s

/-- The `while _link_re.search(text): text = _link_re.sub(...)` loop of
`_clean_chunk_text`, with the iteration bound the spec mandates; each
substitution pass strictly shrinks the text, so fuel = text length suffices
(proved below). -/
def linkLoop : Nat → Chars → Chars
  | 0, s => s
  | fuel + 1, s => if hasLink s = true then linkLoop fuel (linkSubOnce s) else s

def linkStrip (s : Chars) : Chars := linkLoop s.length s

/-- Step 1 of `_clean_chunk_text` and `_clean_markdown`:
`text.replace("*", "").replace("#", "")`. -/
def removeStarsHash (s : Chars) : Chars :=
  s.filter (fun c => decide (c ≠ '*') && decide (c ≠ '#'))

/-- Step 3 of `_clean_chunk_text`: `re.sub(r"[\x80-\x9f]", "", text)`. -/
def removeC1 (s : Chars) : Chars := s.filter (fun c => !(isC1 c))

/-- Step 4 of `_clean_chunk_text`: NBSP → space, U+2011 → '-', drop U+00AD and
U+0358 (the four replacements touch disjoint characters, so one pass is exact). -/
def normalizeUnicode (s : Chars) : Chars :=
  s.filterMap (fun c =>
    if c = '\u00a0' then some ' '
    else if c = '\u2011' then some '-'
    else if c = '\u00ad' then none
    else if c = '\u0358' then none
    else some c)

/-- Does a line match `^[-_]{3,}$`? -/
def isRuleLine (l : Chars) : Bool :=
  decide (3 ≤ l.length) && l.all (fun c => decide (c = '-') || decide (c = '_'))

/-- Step 5 of `_clean_chunk_text`: `re.sub(r"^[-_]{3,}$", "", text, flags=MULTILINE)`
(empties each horizontal-rule line, keeping the newlines). -/
def removeRules (s : Chars) : Chars :=
  joinLines ((splitOnChar '\n' s).map (fun l => if isRuleLine l = true then [] else l))

/-- Replace every maximal run of `x` of length `j` by `min j cap` copies:
with cap 2 this is `re.sub(r"\n{3,}", "\n\n", ·)`, with cap 1 it is
`re.sub(r" {2,}", " ", ·)` and `re.sub(r"-{2,}", "-", ·)`.  `run` counts the
pending copies of `x` already scanned. -/
def capRunsGo (x : Char) (cap : Nat) : Nat → Chars → Chars
  | run, [] => List.replicate (min run cap) x
  | run, c :: rest =>
    if c = x then capRunsGo x cap (run + 1) rest
    else List.replicate (min run cap) x ++ c :: capRunsGo x cap 0 rest

def capRuns (x : Char) (cap : Nat) (s : Chars) : Chars := capRunsGo x cap 0 s

/-- `_clean_chunk_text` from src/rag/chunker.py (passes in source order). -/
def cleanChunkText (s : Chars) : Chars :=
  strip (capRuns ' ' 1 (capRuns '\n' 2 (removeRules (normalizeUnicode
    (removeC1 (linkStrip (removeStarsHash s)))))))

/-- Scanner of the `re.sub(r"\s+", " ", ·)` pass of `_clean_markdown`:
`prevWs` records whether the previous character was whitespace. -/
def collapseWsGo : Bool → Chars → Chars
  | _, [] => []
  | prevWs, c :: rest =>
    if isPyWs c = true then
      (if prevWs = true then collapseWsGo true rest else ' ' :: collapseWsGo true rest)
    else c :: collapseWsGo false rest

/-- C1 → '-' pass of `_clean_markdown` (`re.sub(r"[\x80-\x9f]", "-", ·)`). -/
def c1ToDash (s : Chars) : Chars := s.map (fun c => if isC1 c = true then '-' else c)

/-- U+2011 → '-' pass of `_clean_markdown`. -/
def nbhToDash (s : Chars) : Chars := s.map (fun c => if c = '\u2011' then '-' else c)

/-- `_clean_markdown` from src/rag/chunker.py (single link-sub pass, C1 chars
become dashes, multiple dashes collapse, whitespace runs collapse, strip). -/
def cleanMarkdown (s : Chars) : Chars :=
  strip (collapseWsGo false (capRuns '-' 1 (nbhToDash (c1ToDash
    (linkSubOnce (removeStarsHash s))))))

/-- First `# `-heading content among stripped lines (`_extract_title` main loop). -/
def firstHeading (lines : List Chars) : Option Chars :=
  lines.findSome? (fun l =>
    let t := strip l
    if t.take 2 = ['#', ' '] then some (strip (t.drop 2)) else none)

/-- Fallback of `_extract_title`: first non-empty stripped line not starting
with `---`, truncated to 200 characters. -/
def firstNonEmptyLine (lines : List Chars) : Option Chars :=
  lines.findSome? (fun l =>
    let t := strip l
    if t ≠ [] ∧ t.take 3 ≠ ['-', '-', '-'] then some (t.take 200) else none)

/-- `_extract_title` from src/rag/chunker.py. -/
def extractTitle (s : Chars) : Chars :=
  let lines := splitOnChar '\n' s
  let raw1 := (firstHeading lines).getD []
  let raw := if raw1 = [] then (firstNonEmptyLine lines).getD [] else raw1
  if raw = [] then [] else removeC1 (cleanMarkdown raw)

/-- In-body part of `_extract_jurisdiction`: first of the 30 lines after the
ΚΕΙΜΕΝΟ ΑΠΟΦΑΣΗΣ marker whose `_clean_markdown` form contains ΔΙΚΑΙΟΔΟΣΙΑ. -/
def jurisdictionFromBody (s : Chars) : Option Chars :=
  match bodySearchPlain s with
  | none => none
  | some (bs, blen) =>
    ((splitOnChar '\n' (s.drop (bs + blen))).take 30).findSome? (fun l =>
      let cleaned := cleanMarkdown l
      if containsSubB dikaiodosia cleaned = true then some cleaned else none)

/-- `_JURISDICTION_FALLBACK` table from src/rag/chunker.py, in source order. -/
def jurisdictionFallback : List (Chars × Chars) :=
  [ (("pol").data, ("ΠΟΛΙΤΙΚΗ ΔΙΚΑΙΟΔΟΣΙΑ").data),
    (("poin").data, ("ΠΟΙΝΙΚΗ ΔΙΚΑΙΟΔΟΣΙΑ").data),
    (("oik").data, ("ΟΙΚΟΓΕΝΕΙΑΚΗ ΔΙΚΑΙΟΔΟΣΙΑ").data),
    (("enoik").data, ("ΔΙΚΑΙΟΔΟΣΙΑ ΕΝΟΙΚΙΟΣΤΑΣΙΟΥ").data),
    (("erg").data, ("ΕΡΓΑΤΙΚΗ ΔΙΚΑΙΟΔΟΣΙΑ").data),
    (("meros_1").data, ("ΠΟΙΝΙΚΗ ΔΙΚΑΙΟΔΟΣΙΑ").data),
    (("meros_2").data, ("ΠΟΛΙΤΙΚΗ ΔΙΚΑΙΟΔΟΣΙΑ").data),
    (("meros_3").data, ("ΕΡΓΑΤΙΚΗ ΔΙΚΑΙΟΔΟΣΙΑ").data),
    (("meros_4").data, ("ΔΙΟΙΚΗΤΙΚΗ ΔΙΚΑΙΟΔΟΣΙΑ").data) ]

/-- Path-based fallback loop of `_extract_jurisdiction`
(first table key with `/key/` a substring of the doc id). -/
def fallbackJurisdiction (docId : Chars) : Chars :=
  match jurisdictionFallback.find? (fun kv => containsSubB ('/' :: kv.1 ++ ['/']) docId) with
  | some kv => kv.2
  | none => []

/-- `_extract_jurisdiction` from src/rag/chunker.py. -/
def extractJurisdiction (s docId : Chars) : Chars :=
  match jurisdictionFromBody s with
  | some j => j
  | none => fallbackJurisdiction docId

/-- Match of `\]\(([^)]*\.md)\)` anchored at the start of `s`:
returns (captured path, remainder). -/
def crossRefMatchAt (s : Chars) : Option (Chars × Chars) :=
  match s with
  | ']' :: '(' :: rest =>
    match splitAtChar ')' rest with
    | none => none
    | some (url, r2) =>
      if (".md").data.isSuffixOf url = true then some (url, r2) else none
  | _ => none

/-- `re.findall(r"\]\(([^)]*\.md)\)", s)`: all non-overlapping matches, left to
right.  Each step consumes at least one character, so fuel = length suffices. -/
def findCrossRefsF : Nat → Chars → List Chars
  | 0, _ => []
  | fuel + 1, s =>
    match s with
    | [] => []
    | c :: rest =>
      match crossRefMatchAt (c :: rest) with
      | some (url, r2) => url :: findCrossRefsF fuel r2
      | none => findCrossRefsF fuel rest

/-- `list(dict.fromkeys(refs))`: dedupe keeping first occurrences. -/
def dedupeKeepFirst (seen : List Chars) : List Chars → List Chars
  | [] => []
  | x :: xs => if x ∈ seen then dedupeKeepFirst seen xs else x :: dedupeKeepFirst (x :: seen) xs

/-- `_extract_cross_refs` from src/rag/chunker.py. -/
def extractCrossRefs (s : Chars) : List Chars := dedupeKeepFirst [] (findCrossRefsF s.length s)

/-- `_PATH_TO_COURT` table from src/rag/chunker.py, in source (insertion) order. -/
def pathToCourt : List (Chars × Chars) :=
  [ (("apofaseis/aad").data, ("aad").data),
    (("apofaseis/epa").data, ("epa").data),
    (("apofaseis/aap").data, ("aap").data),
    (("apofaseis/dioikitiko").data, ("dioikitiko").data),
    (("courtOfAppeal").data, ("courtOfAppeal").data),
    (("administrativeCourtOfAppeal").data, ("administrativeCourtOfAppeal").data),
    (("supremeAdministrative").data, ("supremeAdministrative").data),
    (("supreme").data, ("supreme").data),
    (("administrativeIP").data, ("administrativeIP").data),
    (("administrative").data, ("administrative").data),
    (("juvenileCourt").data, ("juvenileCourt").data),
    (("areiospagos").data, ("areiospagos").data),
    (("clr").data, ("clr").data),
    (("jsc").data, ("jsc").data),
    (("rscc").data, ("rscc").data) ]

/-- `Path(rel_path).parts`: path segments, dropping empty and `.` segments,
with a leading `/` segment for absolute paths. -/
def pathPartsOf (s : Chars) : List Chars :=
  let segs := (splitOnChar '/' s).filter (fun p => !p.isEmpty && decide (p ≠ ['.']))
  if s.take 1 = ['/'] then ['/'] :: segs else segs

/-- `_detect_court` from src/rag/chunker.py: first table entry whose prefix is a
substring of the path, else the first path segment, else "unknown". -/
def detectCourt (relPath : Chars) : Chars :=
  match pathToCourt.find? (fun kv => containsSubB kv.1 relPath) with
  | some kv => kv.2
  | none =>
    match pathPartsOf relPath with
    | [] => ("unknown").data
    | p :: _ => p

/-- `_COURT_LEVEL` table from src/rag/chunker.py. -/
def courtLevelTable : List (Chars × Chars) :=
  [ (("aad").data, ("supreme").data),
    (("supreme").data, ("supreme").data),
    (("supremeAdministrative").data, ("supreme").data),
    (("areiospagos").data, ("foreign").data),
    (("courtOfAppeal").data, ("appeal").data),
    (("administrativeCourtOfAppeal").data, ("appeal").data),
    (("apofaseised").data, ("first_instance").data),
    (("administrative").data, ("administrative").data),
    (("administrativeIP").data, ("administrative").data),
    (("juvenileCourt").data, ("first_instance").data),
    (("epa").data, ("other").data),
    (("aap").data, ("other").data),
    (("jsc").data, ("supreme").data),
    (("rscc").data, ("supreme").data),
    (("clr").data, ("supreme").data),
    (("dioikitiko").data, ("administrative").data) ]

/-- `_detect_court_level` from src/rag/chunker.py. -/
def detectCourtLevel (court : Chars) : Chars :=
  match courtLevelTable.find? (fun kv => decide (kv.1 = court)) with
  | some kv => kv.2
  | none => ("other").data

def subcourtCodes : List Chars :=
  [("pol").data, ("poin").data, ("oik").data, ("enoik").data, ("erg").data]

/-- `_detect_subcourt` from src/rag/chunker.py. -/
def detectSubcourt (docId court : Chars) : Chars :=
  if court = ("apofaseised").data then
    match splitOnChar '/' docId with
    | _ :: p1 :: _ => if p1 ∈ subcourtCodes then p1 else []
    | _ => []
  else []

/-- Match of `/(\d{4})/` anchored at the start of `s`. -/
def yearSlashAt (s : Chars) : Option Chars :=
  match s with
  | '/' :: d1 :: d2 :: d3 :: d4 :: '/' :: _ =>
    if (isDigit d1 && isDigit d2 && isDigit d3 && isDigit d4) = true then
      some [d1, d2, d3, d4]
    else none
  | _ => none

/-- Match of `/(\d{4})_` anchored at the start of `s`. -/
def yearUnderscoreAt (s : Chars) : Option Chars :=
  match s with
  | '/' :: d1 :: d2 :: d3 :: d4 :: '_' :: _ =>
    if (isDigit d1 && isDigit d2 && isDigit d3 && isDigit d4) = true then
      some [d1, d2, d3, d4]
    else none
  | _ => none

/-- Leftmost anchored-match scan (for the year regexes). -/
def scanFirst (f : Chars → Option Chars) : Chars → Option Chars
  | [] => f []
  | c :: rest =>
    match f (c :: rest) with
    | some r => some r
    | none => scanFirst f rest

/-- `_detect_year` from src/rag/chunker.py. -/
def detectYear (relPath : Chars) : Chars :=
  match scanFirst yearSlashAt relPath with
  | some y => y
  | none => (scanFirst yearUnderscoreAt relPath).getD []

/-- `_COURT_DISPLAY_NAME` table from src/rag/chunker.py. -/
def courtDisplayName : List (Chars × Chars) :=
  [ (("aad").data, ("Ανώτατο Δικαστήριο").data),
    (("supreme").data, ("Ανώτατο Δικαστήριο (νέο)").data),
    (("supremeAdministrative").data, ("Ανώτατο Συνταγματικό Δικαστήριο").data),
    (("areiospagos").data, ("Άρειος Πάγος (Ελλάδα)").data),
    (("courtOfAppeal").data, ("Εφετείο").data),
    (("administrativeCourtOfAppeal").data, ("Διοικητικό Εφετείο").data),
    (("apofaseised").data, ("Επαρχιακό Δικαστήριο").data),
    (("administrative").data, ("Διοικητικό Δικαστήριο").data),
    (("administrativeIP").data, ("Διοικητικό Δικαστήριο Διεθνούς Προστασίας").data),
    (("juvenileCourt").data, ("Δικαστήριο Παίδων").data),
    (("epa").data, ("Επιτροπή Προστασίας Ανταγωνισμού").data),
    (("aap").data, ("Αναθεωρητική Αρχή Προσφορών").data),
    (("jsc").data, ("Supreme Court of Cyprus").data),
    (("rscc").data, ("Supreme Constitutional Court").data),
    (("clr").data, ("Cyprus Law Reports").data),
    (("dioikitiko").data, ("Διοικητικό Δικαστήριο").data) ]

/-- `_COURT_DISPLAY_NAME.get(court, court)`. -/
def displayFor (court : Chars) : Chars :=
  match courtDisplayName.find? (fun kv => decide (kv.1 = court)) with
  | some kv => kv.2
  | none => court

/-- `_build_chunk_header` from src/rag/chunker.py. -/
def buildChunkHeader (courtName jurisdiction year title : Chars) : Chars :=
  List.intercalate ((" | ").data)
    ([("Δικαστήριο: ").data ++ courtName]
      ++ (if jurisdiction ≠ [] then [jurisdiction] else [])
      ++ (if year ≠ [] then [("Έτος: ").data ++ year] else [])
      ++ (if title ≠ [] then [title.take 120] else []))

/-- Modelled from the spec: the text splitter (`RecursiveCharacterTextSplitter`
with chunk size 2000 and overlap 400) is a third-party library not in the
repository.  The spec describes it as producing size-bounded overlapping
segments in reading order; it is modelled as sliding windows of 2000
characters advancing by 1600 (= size − overlap).  For text of at most 2000
characters it returns the single piece `[s]` (empty text gives no pieces),
exactly as the library does on the pre-stripped input the pipeline feeds it. -/
def splitTextF : Nat → Chars → List Chars
  | 0, s => if s = [] then [] else [s]
  | fuel + 1, s =>
    if s.length ≤ 2000 then (if s = [] then [] else [s])
    else s.take 2000 :: splitTextF fuel (s.drop 1600)

def splitTextModel (s : Chars) : List Chars := splitTextF s.length s

/-- The tail-merge `while` loop of `chunk_document`, on the reversed chunk
list: while at least two chunks remain and the last (= head here) is shorter
than 500 characters, merge it into its predecessor with a blank line.  Each
iteration shortens the list, so fuel = list length suffices. -/
def mergeTailRevF : Nat → List Chars → List Chars
  | 0, l => l
  | fuel + 1, l =>
    match l with
    | last :: prev :: rest =>
      if last.length < 500 then mergeTailRevF fuel ((prev ++ '\n' :: '\n' :: last) :: rest)
      else l
    | _ => l

def mergeTail (l : List Chars) : List Chars := (mergeTailRevF l.length l.reverse).reverse

/-- The `Chunk` dataclass from src/rag/chunker.py. -/
structure Chunk where
  text : Chars
  doc_id : Chars
  title : Chars
  court : Chars
  year : Chars
  chunk_index : Nat
  court_level : Chars
  subcourt : Chars
  jurisdiction : Chars
  cross_refs : List Chars
deriving DecidableEq

/-- The `for i, chunk_text in enumerate(raw_chunks)` loop of `chunk_document`. -/
def buildChunksWith (mk : Nat → Chars → Chunk) : Nat → List Chars → List Chunk
  | _, [] => []
  | i, b :: rest => mk i b :: buildChunksWith mk (i + 1) rest

/-- The raw (pre-header) chunk bodies produced by `chunk_document`. -/
def chunkBodies (text : Chars) : List Chars :=
  mergeTail (splitTextModel (cleanChunkText (stripReferences text)))

/-- The per-document contextual header built by `chunk_document`. -/
def chunkHeader (text docId : Chars) : Chars :=
  buildChunkHeader (displayFor (detectCourt docId)) (extractJurisdiction text docId)
    (detectYear docId) (extractTitle text)

/-- `chunk_document` from src/rag/chunker.py. -/
def chunkDocument (text docId : Chars) : List Chunk :=
  if (strip text).length < 50 then []
  else
    buildChunksWith
      (fun i body =>
        { text := chunkHeader text docId ++ '\n' :: '\n' :: body
          doc_id := docId
          title := extractTitle text
          court := detectCourt docId
          year := detectYear docId
          chunk_index := i
          court_level := detectCourtLevel (detectCourt docId)
          subcourt := detectSubcourt docId (detectCourt docId)
          jurisdiction := extractJurisdiction text docId
          cross_refs := extractCrossRefs text })
      0 (chunkBodies text)

/-- Default chunk value (used only to state facts about `List.getLastD`). -/
def defaultChunk : Chunk :=
  { text := [], doc_id := [], title := [], court := [], year := [], chunk_index := 0,
    court_level := [], subcourt := [], jurisdiction := [], cross_refs := [] }

/-- Scanner deciding whether `s` contains a run of at least `n` consecutive
copies of `x`; `run` counts the copies of `x` immediately preceding the scan
position. -/
def hasRunGo (x : Char) (n : Nat) : Nat → Chars → Bool
  | _, [] => false
  | run, c :: rest =>
    if c = x then decide (n ≤ run + 1) || hasRunGo x n (run + 1) rest
    else hasRunGo x n 0 rest

def hasRun (x : Char) (n : Nat) (s : Chars) : Bool := hasRunGo x n 0 s

/-- Specificity check for an ordered prefix table: no entry's prefix occurs as
a substring of a later entry's prefix (so every prefix that is a substring of
another listed prefix comes after that longer prefix). -/
def noEarlierSubOfLater : List (Chars × Chars) → Bool
  | [] => true
  | kv :: rest => rest.all (fun kv2 => !(containsSubB kv.1 kv2.1)) && noEarlierSubOfLater rest

/-- The `DocumentRecord` dataclass from src/rag/document_extractor.py. -/
structure DocumentRecord where
  doc_id : Chars
  content : Chars
  title : Chars
  court : Chars
  year : Chars
  court_level : Chars
  subcourt : Chars
  jurisdiction : Chars
deriving DecidableEq

/-- Text after the first occurrence of `needle` (Python `str.find` + slice),
or `none` when absent. -/
def dropAfterFirst (needle : Chars) : Chars → Option Chars
  | [] => if needle = [] then some [] else none
  | c :: rest =>
    if needle.isPrefixOf (c :: rest) = true then some ((c :: rest).drop needle.length)
    else dropAfterFirst needle rest

/-- `_extract_subject` from src/rag/document_extractor.py
(`re.search(r"Subject:\s*(.+?)(?:\n|$)", s)`: the group is the rest of the
line after the label and any whitespace, which may span a line break skipped
by `\s*`). -/
def extractSubject (s : Chars) : Chars :=
  match dropAfterFirst (("Subject:").data) s with
  | none => []
  | some rest =>
    let afterWs := rest.dropWhile (fun c => isPyWs c)
    if afterWs = [] then []
    else (strip (afterWs.takeWhile (fun c => decide (c ≠ '\n')))).take 200

/-- The `while body and body[0] in ":* \t\n": body = body[1:].lstrip()` loop of
`_extract_body_for_embedding` (with the preceding `lstrip`). -/
def skipLeadingPunct (s : Chars) : Chars :=
  s.dropWhile (fun c => isPyWs c || decide (c = ':') || decide (c = '*'))

/-- `_extract_body_for_embedding` from src/rag/document_extractor.py. -/
def extractBodyForEmbedding (s : Chars) : Chars :=
  let cleaned := cleanChunkText (stripReferences s)
  match dropAfterFirst legalMarker cleaned with
  | some rest => skipLeadingPunct rest
  | none =>
    match dropAfterFirst decisionMarker cleaned with
    | some rest => skipLeadingPunct rest
    | none => cleaned

/-- The `parts` list built by `extract_document`: title, optional bracketed
subject, body. -/
def docContentCore (text : Chars) : List Chars :=
  (if extractTitle text ≠ [] then [extractTitle text] else [])
    ++ (if extractSubject text ≠ [] then
          [("[Subject: ").data ++ extractSubject text ++ [']']] else [])
    ++ [extractBodyForEmbedding text]

/-- The `content` field built by `extract_document` (blank-line joined parts,
truncated at 3500 characters with a truncation marker). -/
def docContent (text : Chars) : Chars :=
  if 3500 < (List.intercalate ['\n', '\n'] (docContentCore text)).length then
    (List.intercalate ['\n', '\n'] (docContentCore text)).take 3400 ++ ("\n[...truncated]").data
  else List.intercalate ['\n', '\n'] (docContentCore text)

/-- `extract_document` from src/rag/document_extractor.py. -/
def extractDocument (text docId : Chars) : Option DocumentRecord :=
  if (strip text).length < 50 then none
  else if strip (extractBodyForEmbedding text) = [] then none
  else
    some
      { doc_id := docId
        content := docContent text
        title := (extractTitle text).take 200
        court := detectCourt docId
        year := detectYear docId
        court_level := detectCourtLevel (detectCourt docId)
        subcourt := detectSubcourt docId (detectCourt docId)
        jurisdiction := extractJurisdiction text docId }

/-! ### Helper lemmas: link matching and the link-stripping loop -/

theorem splitAtChar_eq {x : Char} :
    ∀ {s a b : Chars}, splitAtChar x s = some (a, b) → s = a ++ x :: b := by
  intro s
  induction s with
  | nil => intro a b h; simp [splitAtChar] at h
  | cons c rest ih =>
    intro a b h
    rw [splitAtChar] at h
    split at h
    · next hc =>
      injection h with h'
      injection h' with h1 h2
      subst h1; subst h2; simp [hc]
    · next hc =>
      split at h
      · exact absurd h (by simp)
      · next a' b' heq =>
        injection h with h'
        injection h' with h1 h2
        subst h1; subst h2
        have hs := ih heq
        rw [hs]; rfl

theorem matchLinkAt_eq {s label rem : Chars} (h : matchLinkAt s = some (label, rem)) :
    ∃ url, s = '[' :: (label ++ ']' :: '(' :: (url ++ ')' :: rem)) := by
  rw [matchLinkAt.eq_def] at h
  split at h
  · next rest =>
    split at h
    · exact absurd h (by simp)
    · next label' r1 heq1 =>
      split at h
      · next r2 =>
        split at h
        · exact absurd h (by simp)
        · next url r3 heq2 =>
          injection h with h'
          injection h' with h1 h2
          subst h1; subst h2
          exact ⟨url, by rw [splitAtChar_eq heq1, splitAtChar_eq heq2]⟩
      · exact absurd h (by simp)
  · next hne =>
    exact absurd h (by simp)

theorem linkSubAllF_length_le :
    ∀ (fuel : Nat) (s : Chars), (linkSubAllF fuel s).length ≤ s.length := by
  intro fuel
  induction fuel with
  | zero => intro s; simp [linkSubAllF]
  | succ fuel ih =>
    intro s
    simp only [linkSubAllF]
    split
    · simp
    · next c rest =>
      split
      · next label rem hm =>
        obtain ⟨url, hurl⟩ := matchLinkAt_eq hm
        have hrec := ih rem
        have : ('[' :: (label ++ ']' :: '(' :: (url ++ ')' :: rem))).length
            = label.length + url.length + rem.length + 4 := by
          simp [List.length_append]; omega
        rw [hurl, this]
        simp only [List.length_append]
        omega
      · next hm =>
        have := ih rest
        simp only [List.length_cons]
        omega

theorem linkSubAllF_length_lt :
    ∀ (fuel : Nat) (s : Chars), s.length ≤ fuel → hasLink s = true →
      (linkSubAllF fuel s).length < s.length := by
  intro fuel
  induction fuel with
  | zero =>
    intro s hf hl
    have hs : s = [] := List.eq_nil_of_length_eq_zero (Nat.le_zero.mp hf)
    subst hs; simp [hasLink] at hl
  | succ fuel ih =>
    intro s hf hl
    simp only [linkSubAllF]
    split
    · simp [hasLink] at hl
    · next c rest =>
      split
      · next label rem hm =>
        obtain ⟨url, hurl⟩ := matchLinkAt_eq hm
        have hle := linkSubAllF_length_le fuel rem
        have : ('[' :: (label ++ ']' :: '(' :: (url ++ ')' :: rem))).length
            = label.length + url.length + rem.length + 4 := by
          simp [List.length_append]; omega
        rw [hurl, this]
        simp only [List.length_append]
        omega
      · next hm =>
        rw [hasLink] at hl
        rw [hm] at hl
        simp only [Option.isSome_none, Bool.false_or] at hl
        have hrest : rest.length ≤ fuel := by
          simp only [List.length_cons] at hf; omega
        have := ih rest hrest hl
        simp only [List.length_cons]
        omega

theorem linkLoop_no_link :
    ∀ (fuel : Nat) (s : Chars), s.length ≤ fuel → hasLink (linkLoop fuel s) = false := by
  intro fuel
  induction fuel with
  | zero =>
    intro s hf
    have hs : s = [] := List.eq_nil_of_length_eq_zero (Nat.le_zero.mp hf)
    subst hs
    simp [linkLoop, hasLink]
  | succ fuel ih =>
    intro s hf
    rw [linkLoop]
    split
    · next hl =>
      have hlt : (linkSubOnce s).length < s.length :=
        linkSubAllF_length_lt s.length s le_rfl hl
      exact ih _ (by omega)
    · next hl => exact Bool.eq_false_iff.mpr hl

/-- Claim C9: the Markdown link-stripping loop inside `_clean_chunk_text`
terminates on every input within the mandated iteration bound: after the loop
(`linkStrip`, the loop with fuel equal to the text length), no match of the
link pattern remains, i.e. the loop exited because its guard became false and
not because iteration was cut short; hence the cleaning function is total. -/
theorem link_loop_terminates (s : Chars) : hasLink (linkStrip s) = false :=
  linkLoop_no_link s.length s le_rfl


/-! ### Helper lemmas: membership through the cleaning passes -/

theorem mem_splitOnChar {x ch : Char} :
    ∀ {s l : Chars}, l ∈ splitOnChar x s → ch ∈ l → ch ∈ s := by
  intro s
  induction s with
  | nil =>
    intro l hl hc
    simp [splitOnChar] at hl
    subst hl; simp at hc
  | cons c rest ih =>
    intro l hl hc
    rw [splitOnChar] at hl
    split at hl
    · next hcx =>
      rcases List.mem_cons.mp hl with h | h
      · subst h; simp at hc
      · exact List.mem_cons_of_mem _ (ih h hc)
    · next hcx =>
      split at hl
      · next hsplit =>
        rcases List.mem_cons.mp hl with h | h
        · subst h
          rcases List.mem_cons.mp hc with h' | h'
          · exact h' ▸ List.mem_cons_self _ _
          · simp at h'
        · simp at h
      · next m ms hsplit =>
        rcases List.mem_cons.mp hl with h | h
        · subst h
          rcases List.mem_cons.mp hc with h' | h'
          · exact h' ▸ List.mem_cons_self _ _
          · exact List.mem_cons_of_mem _ (ih (hsplit ▸ List.mem_cons_self m ms) h')
        · exact List.mem_cons_of_mem _ (ih (hsplit ▸ List.mem_cons_of_mem m h) hc)

theorem mem_joinLines {ch : Char} :
    ∀ {ls : List Chars}, ch ∈ joinLines ls → (∃ l ∈ ls, ch ∈ l) ∨ ch = '\n' := by
  intro ls
  induction ls with
  | nil => intro h; simp [joinLines] at h
  | cons l ls ih =>
    intro h
    cases ls with
    | nil =>
      left; exact ⟨l, List.mem_cons_self _ _, by simpa [joinLines] using h⟩
    | cons l2 ls2 =>
      have hj : joinLines (l :: l2 :: ls2) = l ++ '\n' :: joinLines (l2 :: ls2) := rfl
      rw [hj] at h
      rcases List.mem_append.mp h with h | h
      · exact Or.inl ⟨l, List.mem_cons_self _ _, h⟩
      · rcases List.mem_cons.mp h with h | h
        · exact Or.inr h
        · rcases ih h with ⟨l', hl', hc⟩ | h'
          · exact Or.inl ⟨l', List.mem_cons_of_mem _ hl', hc⟩
          · exact Or.inr h'

theorem mem_capRunsGo {x ch : Char} {cap : Nat} :
    ∀ {s : Chars} {run : Nat}, ch ∈ capRunsGo x cap run s → ch ∈ s ∨ ch = x := by
  intro s
  induction s with
  | nil =>
    intro run h
    rw [capRunsGo] at h
    exact Or.inr (List.eq_of_mem_replicate h)
  | cons c rest ih =>
    intro run h
    rw [capRunsGo] at h
    split at h
    · next hcx =>
      rcases ih h with h' | h'
      · exact Or.inl (List.mem_cons_of_mem _ h')
      · exact Or.inr h'
    · next hcx =>
      rcases List.mem_append.mp h with h' | h'
      · exact Or.inr (List.eq_of_mem_replicate h')
      · rcases List.mem_cons.mp h' with h'' | h''
        · exact Or.inl (h'' ▸ List.mem_cons_self _ _)
        · rcases ih h'' with h3 | h3
          · exact Or.inl (List.mem_cons_of_mem _ h3)
          · exact Or.inr h3

theorem mem_linkSubAllF {ch : Char} :
    ∀ {fuel : Nat} {s : Chars}, ch ∈ linkSubAllF fuel s → ch ∈ s := by
  intro fuel
  induction fuel with
  | zero => intro s h; simpa [linkSubAllF] using h
  | succ fuel ih =>
    intro s h
    simp only [linkSubAllF] at h
    split at h
    · simp at h
    · next c rest =>
      split at h
      · next label rem hm =>
        obtain ⟨url, hurl⟩ := matchLinkAt_eq hm
        rw [hurl]
        rcases List.mem_append.mp h with h' | h'
        · simp [List.mem_append, h']
        · have := ih h'
          simp [List.mem_append, this]
      · next hm =>
        rcases List.mem_cons.mp h with h' | h'
        · exact h' ▸ List.mem_cons_self _ _
        · exact List.mem_cons_of_mem _ (ih h')

theorem mem_linkLoop {ch : Char} :
    ∀ {fuel : Nat} {s : Chars}, ch ∈ linkLoop fuel s → ch ∈ s := by
  intro fuel
  induction fuel with
  | zero => intro s h; simpa [linkLoop] using h
  | succ fuel ih =>
    intro s h
    rw [linkLoop] at h
    split at h
    · exact mem_linkSubAllF (ih h)
    · exact h

theorem mem_lstrip {ch : Char} {s : Chars} (h : ch ∈ lstrip s) : ch ∈ s :=
  (List.dropWhile_suffix _).subset h

theorem mem_rstrip {ch : Char} {s : Chars} (h : ch ∈ rstrip s) : ch ∈ s := by
  rw [rstrip] at h
  rw [List.mem_reverse] at h
  exact List.mem_reverse.mp ((List.dropWhile_suffix _).subset h)

theorem mem_strip {ch : Char} {s : Chars} (h : ch ∈ strip s) : ch ∈ s :=
  mem_lstrip (mem_rstrip h)

theorem mem_removeStarsHash {ch : Char} {s : Chars} (h : ch ∈ removeStarsHash s) :
    ch ∈ s ∧ ch ≠ '*' ∧ ch ≠ '#' := by
  rw [removeStarsHash, List.mem_filter] at h
  have h2 := h.2
  simp only [Bool.and_eq_true, decide_eq_true_eq] at h2
  exact ⟨h.1, h2.1, h2.2⟩

theorem mem_removeC1 {ch : Char} {s : Chars} (h : ch ∈ removeC1 s) :
    ch ∈ s ∧ isC1 ch = false := by
  rw [removeC1, List.mem_filter] at h
  have h2 := h.2
  simp only [Bool.not_eq_true'] at h2
  exact ⟨h.1, h2⟩

theorem mem_normalizeUnicode {ch : Char} {s : Chars} (h : ch ∈ normalizeUnicode s) :
    ch ∈ s ∨ ch = ' ' ∨ ch = '-' := by
  rw [normalizeUnicode, List.mem_filterMap] at h
  obtain ⟨b, hb, hf⟩ := h
  split at hf
  · right; left; exact (Option.some_injective _ hf).symm
  · split at hf
    · right; right; exact (Option.some_injective _ hf).symm
    · split at hf
      · simp at hf
      · split at hf
        · simp at hf
        · left; exact (Option.some_injective _ hf) ▸ hb

theorem mem_normalizeUnicode_notSpecial {ch : Char} {s : Chars} (h : ch ∈ normalizeUnicode s) :
    ch ≠ '\u00a0' ∧ ch ≠ '\u2011' ∧ ch ≠ '\u00ad' ∧ ch ≠ '\u0358' := by
  rw [normalizeUnicode, List.mem_filterMap] at h
  obtain ⟨b, hb, hf⟩ := h
  split at hf
  · have := (Option.some_injective _ hf).symm
    subst this
    refine ⟨by decide, by decide, by decide, by decide⟩
  · split at hf
    · have := (Option.some_injective _ hf).symm
      subst this
      refine ⟨by decide, by decide, by decide, by decide⟩
    · split at hf
      · simp at hf
      · split at hf
        · simp at hf
        · next h1 h2 h3 h4 =>
          have hbe := Option.some_injective _ hf
          subst hbe
          exact ⟨h1, h2, h3, h4⟩

theorem mem_removeRules {ch : Char} {s : Chars} (h : ch ∈ removeRules s) :
    ch ∈ s ∨ ch = '\n' := by
  rw [removeRules] at h
  rcases mem_joinLines h with ⟨l, hl, hc⟩ | h'
  · rcases List.mem_map.mp hl with ⟨l0, hl0, hfl⟩
    rw [← hfl] at hc
    split at hc
    · simp at hc
    · exact Or.inl (mem_splitOnChar hl0 hc)
  · exact Or.inr h'

theorem cleanChunkText_chars {ch : Char} {s : Chars} (h : ch ∈ cleanChunkText s) :
    ch ≠ '*' ∧ ch ≠ '#' ∧ isC1 ch = false := by
  rw [cleanChunkText] at h
  have h1 := mem_strip h
  rcases mem_capRunsGo h1 with h2 | h2
  swap
  · subst h2; exact ⟨by decide, by decide, by decide⟩
  rcases mem_capRunsGo h2 with h3 | h3
  swap
  · subst h3; exact ⟨by decide, by decide, by decide⟩
  rcases mem_removeRules h3 with h4 | h4
  swap
  · subst h4; exact ⟨by decide, by decide, by decide⟩
  rcases mem_normalizeUnicode h4 with h5 | h5 | h5
  rotate_left
  · subst h5; exact ⟨by decide, by decide, by decide⟩
  · subst h5; exact ⟨by decide, by decide, by decide⟩
  obtain ⟨h6, hc1⟩ := mem_removeC1 h5
  have h7 := mem_linkLoop h6
  obtain ⟨_, hstar, hhash⟩ := mem_removeStarsHash h7
  exact ⟨hstar, hhash, hc1⟩

theorem cleanChunkText_notSpecial {ch : Char} {s : Chars} (h : ch ∈ cleanChunkText s) :
    ch ≠ '\u00a0' ∧ ch ≠ '\u2011' ∧ ch ≠ '\u00ad' ∧ ch ≠ '\u0358' := by
  rw [cleanChunkText] at h
  have h1 := mem_strip h
  rcases mem_capRunsGo h1 with h2 | h2
  swap
  · subst h2; exact ⟨by decide, by decide, by decide, by decide⟩
  rcases mem_capRunsGo h2 with h3 | h3
  swap
  · subst h3; exact ⟨by decide, by decide, by decide, by decide⟩
  rcases mem_removeRules h3 with h4 | h4
  swap
  · subst h4; exact ⟨by decide, by decide, by decide, by decide⟩
  exact mem_normalizeUnicode_notSpecial h4


/-! ### Helper lemmas: character runs and the run-capping passes -/

theorem hasRunGo_cons_ne {x c : Char} {n r : Nat} {t : Chars} (hc : ¬ c = x) :
    hasRunGo x n r (c :: t) = hasRunGo x n 0 t := by
  simp [hasRunGo, hc]

theorem hasRunGo_cons_eq {x : Char} {n r : Nat} {t : Chars} :
    hasRunGo x n r (x :: t) = (decide (n ≤ r + 1) || hasRunGo x n (r + 1) t) := by
  simp [hasRunGo]

theorem hasRunGo_mono {x : Char} {n : Nat} :
    ∀ {s : Chars} {r r' : Nat}, r' ≤ r → hasRunGo x n r s = false → hasRunGo x n r' s = false := by
  intro s
  induction s with
  | nil => intro r r' _ _; rfl
  | cons c rest ih =>
    intro r r' hle h
    by_cases hc : c = x
    · subst hc
      rw [hasRunGo_cons_eq] at h ⊢
      rcases Bool.or_eq_false_iff.mp h with ⟨h1, h2⟩
      rw [Bool.or_eq_false_iff]
      refine ⟨?_, ih (by omega) h2⟩
      simp only [decide_eq_false_iff_not] at h1 ⊢
      omega
    · rw [hasRunGo_cons_ne hc] at h ⊢
      exact h

theorem hasRunGo_of_append {x : Char} {n : Nat} :
    ∀ {u v : Chars} {r : Nat}, hasRunGo x n r (u ++ v) = false → hasRunGo x n 0 v = false := by
  intro u
  induction u with
  | nil => intro v r h; exact hasRunGo_mono (Nat.zero_le r) h
  | cons c u' ih =>
    intro v r h
    by_cases hc : c = x
    · subst hc
      rw [List.cons_append, hasRunGo_cons_eq] at h
      exact ih (Bool.or_eq_false_iff.mp h).2
    · rw [List.cons_append, hasRunGo_cons_ne hc] at h
      exact ih h

theorem hasRunGo_of_append_left {x : Char} {n : Nat} :
    ∀ {t b : Chars} {r : Nat}, hasRunGo x n r (t ++ b) = false → hasRunGo x n r t = false := by
  intro t
  induction t with
  | nil => intro b r _; rfl
  | cons c t' ih =>
    intro b r h
    by_cases hc : c = x
    · subst hc
      rw [List.cons_append, hasRunGo_cons_eq] at h
      rcases Bool.or_eq_false_iff.mp h with ⟨h1, h2⟩
      rw [hasRunGo_cons_eq, Bool.or_eq_false_iff]
      exact ⟨h1, ih h2⟩
    · rw [List.cons_append, hasRunGo_cons_ne hc] at h
      rw [hasRunGo_cons_ne hc]
      exact ih h

theorem hasRunGo_replicate_other {x y : Char} {n : Nat} (hyx : ¬ y = x) :
    ∀ (k : Nat) {r : Nat}, hasRunGo x n r (List.replicate k y) = false := by
  intro k
  induction k with
  | zero => intro r; rfl
  | succ k ih =>
    intro r
    rw [List.replicate_succ, hasRunGo_cons_ne hyx]
    exact ih

theorem hasRunGo_replicate_other_append {x y : Char} {n : Nat} (hyx : ¬ y = x) :
    ∀ {k : Nat}, 1 ≤ k → ∀ {tail : Chars} {r : Nat},
      hasRunGo x n r (List.replicate k y ++ tail) = hasRunGo x n 0 tail := by
  intro k
  induction k with
  | zero => intro h; omega
  | succ k ih =>
    intro _ tail r
    rw [List.replicate_succ, List.cons_append, hasRunGo_cons_ne hyx]
    cases k with
    | zero => simp
    | succ k' => exact ih (by omega)

theorem hasRunGo_replicate_self {x : Char} {cap : Nat} :
    ∀ {k r : Nat}, k + r ≤ cap → hasRunGo x (cap + 1) r (List.replicate k x) = false := by
  intro k
  induction k with
  | zero => intro r _; rfl
  | succ k ih =>
    intro r hkr
    rw [List.replicate_succ, hasRunGo_cons_eq, Bool.or_eq_false_iff]
    constructor
    · simp only [decide_eq_false_iff_not]; omega
    · exact ih (by omega)

theorem hasRunGo_replicate_self_append {x c : Char} {cap : Nat} {tail : Chars} (hc : ¬ c = x) :
    ∀ {k r : Nat}, r + k ≤ cap →
      hasRunGo x (cap + 1) r (List.replicate k x ++ c :: tail) = hasRunGo x (cap + 1) 0 tail := by
  intro k
  induction k with
  | zero =>
    intro r _
    rw [List.replicate, List.nil_append, hasRunGo_cons_ne hc]
  | succ k ih =>
    intro r hrk
    rw [List.replicate_succ, List.cons_append, hasRunGo_cons_eq]
    have h1 : decide (cap + 1 ≤ r + 1) = false := by
      simp only [decide_eq_false_iff_not]; omega
    rw [h1, Bool.false_or]
    exact ih (by omega)

theorem capRunsGo_no_long_run {x : Char} {cap : Nat} :
    ∀ (s : Chars) (run : Nat), hasRunGo x (cap + 1) 0 (capRunsGo x cap run s) = false := by
  intro s
  induction s with
  | nil =>
    intro run
    rw [capRunsGo]
    exact hasRunGo_replicate_self (by omega)
  | cons c rest ih =>
    intro run
    rw [capRunsGo]
    split
    · exact ih (run + 1)
    · next hc =>
      rw [hasRunGo_replicate_self_append hc (by omega)]
      exact ih 0

theorem capRunsGo_eq_self {x : Char} {cap : Nat} :
    ∀ (s : Chars) (run : Nat), run ≤ cap → hasRunGo x (cap + 1) run s = false →
      capRunsGo x cap run s = List.replicate run x ++ s := by
  intro s
  induction s with
  | nil =>
    intro run hrun _
    rw [capRunsGo, Nat.min_eq_left hrun, List.append_nil]
  | cons c rest ih =>
    intro run hrun h
    rw [capRunsGo]
    split
    · next hc =>
      subst hc
      rw [hasRunGo_cons_eq] at h
      rcases Bool.or_eq_false_iff.mp h with ⟨h1, h2⟩
      have hr1 : run + 1 ≤ cap := by
        simp only [decide_eq_false_iff_not] at h1; omega
      rw [ih (run + 1) hr1 h2, List.replicate_succ']
      simp
    · next hc =>
      rw [hasRunGo_cons_ne hc] at h
      rw [ih 0 (Nat.zero_le cap) h, Nat.min_eq_left hrun]
      simp

theorem capRunsGo_preserve {x y : Char} {n cap : Nat} (hxy : ¬ y = x) (hcap : 1 ≤ cap) :
    ∀ (s : Chars) (ry r' : Nat),
      hasRunGo x n (if ry = 0 then r' else 0) s = false →
      hasRunGo x n r' (capRunsGo y cap ry s) = false := by
  intro s
  induction s with
  | nil =>
    intro ry r' _
    rw [capRunsGo]
    exact hasRunGo_replicate_other hxy _
  | cons c rest ih =>
    intro ry r' h
    rw [capRunsGo]
    split
    · next hcy =>
      subst hcy
      have h0 : hasRunGo x n 0 rest = false := by
        cases ry with
        | zero =>
          simp only [if_pos rfl] at h
          rw [hasRunGo_cons_ne hxy] at h
          exact h
        | succ ry' =>
          simp only [Nat.succ_ne_zero, if_neg (by omega : ¬ ry' + 1 = 0)] at h
          rw [hasRunGo_cons_ne hxy] at h
          exact h
      have := ih (ry + 1) r'
      rw [if_neg (by omega : ¬ ry + 1 = 0)] at this
      exact this h0
    · next hcy =>
      cases ry with
      | zero =>
        simp only [Nat.min_self, Nat.zero_min, List.replicate, List.nil_append]
        simp only [if_pos rfl] at h
        by_cases hcx : c = x
        · subst hcx
          rw [hasRunGo_cons_eq] at h ⊢
          rcases Bool.or_eq_false_iff.mp h with ⟨h1, h2⟩
          rw [Bool.or_eq_false_iff]
          refine ⟨h1, ?_⟩
          have := ih 0 (r' + 1)
          rw [if_pos rfl] at this
          exact this h2
        · rw [hasRunGo_cons_ne hcx] at h ⊢
          have := ih 0 0
          rw [if_pos rfl] at this
          exact this h
      | succ ry' =>
        simp only [if_neg (by omega : ¬ ry' + 1 = 0)] at h
        have hk : 1 ≤ min (ry' + 1) cap := by omega
        rw [hasRunGo_replicate_other_append hxy hk]
        by_cases hcx : c = x
        · subst hcx
          rw [hasRunGo_cons_eq] at h ⊢
          rcases Bool.or_eq_false_iff.mp h with ⟨h1, h2⟩
          rw [Bool.or_eq_false_iff]
          refine ⟨h1, ?_⟩
          have := ih 0 (0 + 1)
          rw [if_pos rfl] at this
          exact this h2
        · rw [hasRunGo_cons_ne hcx] at h ⊢
          have := ih 0 0
          rw [if_pos rfl] at this
          exact this h

theorem capRuns_no_long_run {x : Char} {cap : Nat} (s : Chars) :
    hasRun x (cap + 1) (capRuns x cap s) = false :=
  capRunsGo_no_long_run s 0

theorem capRuns_eq_self {x : Char} {cap : Nat} {s : Chars} (h : hasRun x (cap + 1) s = false) :
    capRuns x cap s = s := by
  rw [capRuns, capRunsGo_eq_self s 0 (Nat.zero_le cap) h]
  rfl

theorem capRuns_preserve {x y : Char} {n cap : Nat} (hxy : ¬ y = x) (hcap : 1 ≤ cap)
    {s : Chars} (h : hasRun x n s = false) : hasRun x n (capRuns y cap s) = false := by
  have := @capRunsGo_preserve x y n cap hxy hcap s 0 0
  rw [if_pos rfl] at this
  exact this h

theorem hasRun_lstrip {x : Char} {n : Nat} {s : Chars} (h : hasRun x n s = false) :
    hasRun x n (lstrip s) = false := by
  obtain ⟨u, hu⟩ := List.dropWhile_suffix (l := s) (fun c => isPyWs c)
  rw [hasRun] at h
  rw [← hu] at h
  exact hasRunGo_of_append h

theorem hasRun_rstrip {x : Char} {n : Nat} {s : Chars} (h : hasRun x n s = false) :
    hasRun x n (rstrip s) = false := by
  have hpre : rstrip s <+: s := by
    rw [rstrip, ← List.reverse_suffix, List.reverse_reverse]
    exact List.dropWhile_suffix _
  obtain ⟨b, hb⟩ := hpre
  rw [hasRun] at h ⊢
  rw [← hb] at h
  exact hasRunGo_of_append_left h

theorem hasRun_strip {x : Char} {n : Nat} {s : Chars} (h : hasRun x n s = false) :
    hasRun x n (strip s) = false :=
  hasRun_rstrip (hasRun_lstrip h)


/-! ### Helper lemmas: fixpoints of the cleaning passes -/

theorem filterMap_id_of_mem {α : Type} {f : α → Option α} :
    ∀ {l : List α}, (∀ a ∈ l, f a = some a) → l.filterMap f = l := by
  intro l
  induction l with
  | nil => intro _; rfl
  | cons a l ih =>
    intro h
    rw [List.filterMap_cons, h a (List.mem_cons_self a l),
      ih (fun b hb => h b (List.mem_cons_of_mem a hb))]

theorem splitOnChar_ne_nil {x : Char} : ∀ (s : Chars), splitOnChar x s ≠ [] := by
  intro s
  cases s with
  | nil => simp [splitOnChar]
  | cons c rest =>
    rw [splitOnChar]
    split
    · simp
    · split
      · simp
      · simp

theorem joinLines_cons {m : Chars} {ms : List Chars} (c : Char) :
    joinLines ((c :: m) :: ms) = c :: joinLines (m :: ms) := by
  cases ms with
  | nil => rfl
  | cons m2 ms2 => rfl

theorem joinLines_splitOnChar : ∀ (s : Chars), joinLines (splitOnChar '\n' s) = s := by
  intro s
  induction s with
  | nil => rfl
  | cons c rest ih =>
    rw [splitOnChar]
    split
    · next hc =>
      subst hc
      obtain ⟨m, ms, hm⟩ : ∃ m ms, splitOnChar '\n' rest = m :: ms := by
        cases hsp : splitOnChar '\n' rest with
        | nil => exact absurd hsp (splitOnChar_ne_nil rest)
        | cons m ms => exact ⟨m, ms, rfl⟩
      rw [hm]
      have : joinLines ([] :: m :: ms) = '\n' :: joinLines (m :: ms) := rfl
      rw [this, ← hm, ih]
    · next hc =>
      cases hsp : splitOnChar '\n' rest with
      | nil => exact absurd hsp (splitOnChar_ne_nil rest)
      | cons m ms =>
        show joinLines ((c :: m) :: ms) = c :: rest
        rw [joinLines_cons, ← hsp, ih]

theorem removeRules_eq_self {s : Chars}
    (h : ∀ l ∈ splitOnChar '\n' s, isRuleLine l = false) : removeRules s = s := by
  rw [removeRules]
  have hmap : (splitOnChar '\n' s).map (fun l => if isRuleLine l = true then [] else l)
      = (splitOnChar '\n' s).map id := by
    apply List.map_congr_left
    intro l hl
    rw [h l hl]
    simp
  rw [hmap, List.map_id, joinLines_splitOnChar]

theorem dropWhile_idem {α : Type} {p : α → Bool} :
    ∀ (l : List α), (l.dropWhile p).dropWhile p = l.dropWhile p := by
  intro l
  induction l with
  | nil => rfl
  | cons a l ih =>
    rw [List.dropWhile_cons]
    split
    · exact ih
    · next hp => rw [List.dropWhile_cons, if_neg hp]

theorem rstrip_idem (s : Chars) : rstrip (rstrip s) = rstrip s := by
  rw [rstrip, rstrip, List.reverse_reverse, dropWhile_idem]

theorem head?_dropWhile_not {α : Type} {p : α → Bool} :
    ∀ {l : List α} {c : α}, (l.dropWhile p).head? = some c → p c = false := by
  intro l
  induction l with
  | nil => intro c h; simp at h
  | cons a l ih =>
    intro c h
    rw [List.dropWhile_cons] at h
    split at h
    · exact ih h
    · next hp =>
      simp only [List.head?_cons, Option.some_inj] at h
      subst h
      exact Bool.eq_false_iff.mpr hp

theorem lstrip_eq_self_of_head {s : Chars}
    (h : ∀ c, s.head? = some c → isPyWs c = false) : lstrip s = s := by
  cases s with
  | nil => rfl
  | cons c rest =>
    rw [lstrip, List.dropWhile_cons, if_neg]
    rw [h c rfl]
    simp

theorem strip_strip (s : Chars) : strip (strip s) = strip s := by
  rw [strip, strip]
  have h1 : lstrip (rstrip (lstrip s)) = rstrip (lstrip s) := by
    apply lstrip_eq_self_of_head
    intro c hc
    have hpre : rstrip (lstrip s) <+: lstrip s := by
      rw [rstrip, ← List.reverse_suffix, List.reverse_reverse]
      exact List.dropWhile_suffix _
    obtain ⟨b, hb⟩ := hpre
    have hhead : (lstrip s).head? = some c := by
      rw [← hb]
      cases hr : rstrip (lstrip s) with
      | nil => rw [hr] at hc; simp at hc
      | cons a t =>
        rw [hr] at hc
        simp only [List.head?_cons, Option.some_inj] at hc
        subst hc
        rfl
    exact head?_dropWhile_not hhead
  rw [h1, rstrip_idem]

theorem strip_cleanChunkText (t : Chars) : strip (cleanChunkText t) = cleanChunkText t := by
  rw [cleanChunkText]
  exact strip_strip _

theorem linkLoop_eq_self {s : Chars} (h : hasLink s = false) :
    ∀ (fuel : Nat), linkLoop fuel s = s := by
  intro fuel
  cases fuel with
  | zero => rfl
  | succ fuel => rw [linkLoop, if_neg (by rw [h]; simp)]

theorem linkStrip_eq_self {s : Chars} (h : hasLink s = false) : linkStrip s = s :=
  linkLoop_eq_self h s.length

theorem removeStarsHash_eq_self {s : Chars} (h : ∀ c ∈ s, c ≠ '*' ∧ c ≠ '#') :
    removeStarsHash s = s := by
  rw [removeStarsHash]
  rw [List.filter_eq_self]
  intro c hc
  have := h c hc
  simp [this.1, this.2]

theorem removeC1_eq_self {s : Chars} (h : ∀ c ∈ s, isC1 c = false) : removeC1 s = s := by
  rw [removeC1]
  rw [List.filter_eq_self]
  intro c hc
  rw [h c hc]
  rfl

theorem normalizeUnicode_eq_self {s : Chars}
    (h : ∀ c ∈ s, c ≠ ' ' ∧ c ≠ '‑' ∧ c ≠ '­' ∧ c ≠ '͘') :
    normalizeUnicode s = s := by
  rw [normalizeUnicode]
  apply filterMap_id_of_mem
  intro c hc
  obtain ⟨h1, h2, h3, h4⟩ := h c hc
  rw [if_neg h1, if_neg h2, if_neg h3, if_neg h4]

/-- Claim C7 counterexample: `_clean_chunk_text` is not idempotent.  On the
input `" ---\x80"`-free example `" ---\n[a]\u0080(b)"`, one pass yields
`"---\n[a](b)"` (the leading space hid the horizontal rule, and removing the
C1 byte created a fresh Markdown link), while a second pass removes both,
yielding `"a"`. -/
theorem clean_idempotent_counterexample :
    cleanChunkText (cleanChunkText ((" ---\n[a]\u0080(b)").data)) ≠
      cleanChunkText ((" ---\n[a]\u0080(b)").data) := by decide

/-- Claim C7 (corrected): the body-text cleaning pass `_clean_chunk_text` is
idempotent on every input whose cleaned form contains no match of the Markdown
link pattern and no horizontal-rule line.  (As the counterexample shows, a
second pass can differ without these conditions: C1/soft-hyphen removal can
expose new link syntax, and space collapsing plus stripping can expose a new
horizontal-rule line.) -/
theorem clean_idempotent_amended (t : Chars)
    (h1 : hasLink (cleanChunkText t) = false)
    (h2 : ∀ l ∈ splitOnChar '\n' (cleanChunkText t), isRuleLine l = false) :
    cleanChunkText (cleanChunkText t) = cleanChunkText t := by
  have hSH : removeStarsHash (cleanChunkText t) = cleanChunkText t :=
    removeStarsHash_eq_self (fun c hc => ⟨(cleanChunkText_chars hc).1, (cleanChunkText_chars hc).2.1⟩)
  have hC1 : removeC1 (cleanChunkText t) = cleanChunkText t :=
    removeC1_eq_self (fun c hc => (cleanChunkText_chars hc).2.2)
  have hNU : normalizeUnicode (cleanChunkText t) = cleanChunkText t :=
    normalizeUnicode_eq_self (fun c hc => cleanChunkText_notSpecial hc)
  have hRR : removeRules (cleanChunkText t) = cleanChunkText t := removeRules_eq_self h2
  have haNl : hasRun '\n' (2 + 1) (cleanChunkText t) = false := by
    rw [cleanChunkText]
    apply hasRun_strip
    exact capRuns_preserve (by decide) (by omega) (capRuns_no_long_run _)
  have haSp : hasRun ' ' (1 + 1) (cleanChunkText t) = false := by
    rw [cleanChunkText]
    apply hasRun_strip
    exact capRuns_no_long_run _
  have hNl : capRuns '\n' 2 (cleanChunkText t) = cleanChunkText t := capRuns_eq_self haNl
  have hSp : capRuns ' ' 1 (cleanChunkText t) = cleanChunkText t := capRuns_eq_self haSp
  conv_lhs => rw [cleanChunkText]
  rw [hSH, linkStrip_eq_self h1, hC1, hNU, hRR, hNl, hSp, strip_cleanChunkText]

/-- Witness for the amended C7 theorem at a concrete input. -/
theorem clean_idempotent_amended_witness :
    cleanChunkText (cleanChunkText (("hello legal world").data)) =
      cleanChunkText (("hello legal world").data) :=
  clean_idempotent_amended (("hello legal world").data) (by decide) (by decide)


/-! ### Helper lemmas: chunk assembly -/

theorem buildChunksWith_length {mk : Nat → Chars → Chunk} :
    ∀ (i : Nat) (l : List Chars), (buildChunksWith mk i l).length = l.length := by
  intro i l
  induction l generalizing i with
  | nil => rfl
  | cons b rest ih => rw [buildChunksWith, List.length_cons, List.length_cons, ih]

theorem buildChunksWith_mem {mk : Nat → Chars → Chunk} :
    ∀ {i : Nat} {l : List Chars} {c : Chunk}, c ∈ buildChunksWith mk i l →
      ∃ k b, b ∈ l ∧ c = mk k b := by
  intro i l
  induction l generalizing i with
  | nil => intro c hc; simp [buildChunksWith] at hc
  | cons b rest ih =>
    intro c hc
    rw [buildChunksWith] at hc
    rcases List.mem_cons.mp hc with h | h
    · exact ⟨i, b, List.mem_cons_self _ _, h⟩
    · obtain ⟨k, b', hb', hc'⟩ := ih h
      exact ⟨k, b', List.mem_cons_of_mem _ hb', hc'⟩

theorem buildChunksWith_map_index {mk : Nat → Chars → Chunk}
    (hmk : ∀ k b, (mk k b).chunk_index = k) :
    ∀ (i : Nat) (l : List Chars),
      (buildChunksWith mk i l).map (fun c => c.chunk_index) = List.range' i l.length := by
  intro i l
  induction l generalizing i with
  | nil => rfl
  | cons b rest ih =>
    rw [buildChunksWith, List.map_cons, hmk, List.length_cons, List.range'_succ, ih]

theorem buildChunksWith_getLast? {mk : Nat → Chars → Chunk} :
    ∀ (i : Nat) (l : List Chars), l ≠ [] →
      ∃ k b, l.getLast? = some b ∧ (buildChunksWith mk i l).getLast? = some (mk k b) := by
  intro i l
  induction l generalizing i with
  | nil => intro h; exact absurd rfl h
  | cons b rest ih =>
    intro _
    cases rest with
    | nil => exact ⟨i, b, rfl, rfl⟩
    | cons b2 rest2 =>
      obtain ⟨k, b', hb', hc'⟩ := ih (i + 1) (by simp)
      refine ⟨k, b', ?_, ?_⟩
      · rw [List.getLast?_cons_cons]; exact hb'
      · rw [buildChunksWith, buildChunksWith]
        rw [List.getLast?_cons_cons]
        rw [← buildChunksWith]
        exact hc'

theorem mergeTailRevF_head :
    ∀ (fuel : Nat) (l : List Chars), l.length ≤ fuel →
      ∀ (x y : Chars) (r : List Chars), mergeTailRevF fuel l = x :: y :: r → 500 ≤ x.length := by
  intro fuel
  induction fuel with
  | zero =>
    intro l hl x y r h
    have : l = [] := List.eq_nil_of_length_eq_zero (Nat.le_zero.mp hl)
    subst this
    simp [mergeTailRevF] at h
  | succ fuel ih =>
    intro l hl x y r h
    rcases l with _ | ⟨a, _ | ⟨b, rest⟩⟩
    · simp [mergeTailRevF] at h
    · simp [mergeTailRevF] at h
    · have hred : mergeTailRevF (fuel + 1) (a :: b :: rest)
          = if a.length < 500 then mergeTailRevF fuel ((b ++ '\n' :: '\n' :: a) :: rest)
            else a :: b :: rest := rfl
      rw [hred] at h
      split at h
      · exact ih _ (by simp at hl ⊢; omega) x y r h
      · next ha =>
        injection h with h1 h2
        subst h1
        omega

theorem mergeTail_getLast {l : List Chars} (h2 : 2 ≤ (mergeTail l).length) :
    ∃ b, (mergeTail l).getLast? = some b ∧ 500 ≤ b.length := by
  rw [mergeTail] at h2 ⊢
  rcases hm : mergeTailRevF l.length l.reverse with _ | ⟨x, _ | ⟨y, r⟩⟩
  · rw [hm] at h2; simp at h2
  · rw [hm] at h2; simp at h2
  · refine ⟨x, ?_, ?_⟩
    · rw [List.getLast?_reverse]
      rfl
    · exact mergeTailRevF_head l.length l.reverse (by rw [List.length_reverse]) x y r hm

/-! ### Claims C1, C2, C5, C6 -/

/-- Claim C1: court classification (`_detect_court`) returns the court id of
the first entry of the ordered `_PATH_TO_COURT` table whose prefix occurs as a
substring of the path (this is `List.find?` over the table, by definition of
`detectCourt`), and the table ordering respects specificity: no entry's prefix
is a substring of a later entry's prefix, so every prefix that is a substring
of another listed prefix comes after that longer prefix.  In particular the
three paths named in the claim classify as stated. -/
theorem court_classification_ordering :
    noEarlierSubOfLater pathToCourt = true
    ∧ detectCourt (("administrativeCourtOfAppeal/2024/x.md").data)
        = ("administrativeCourtOfAppeal").data
    ∧ detectCourt (("supremeAdministrative/2024/y.md").data) = ("supremeAdministrative").data
    ∧ detectCourt (("supreme/2024/y.md").data) = ("supreme").data := by
  refine ⟨by decide, by decide, by decide, by decide⟩

/-- Claim C2 counterexample: the degenerate-input floor is measured by
`len(text.strip())`, which counts internal whitespace, not by the number of
non-whitespace characters.  The input `"a" + 60 spaces + "b"` has 2
non-whitespace characters, yet `extract_document` produces a record (and
`chunk_document` a chunk), refuting the claim as stated. -/
theorem chunk_floor_counterexample :
    ((("a                                                            b").data).filter
        (fun c => !(isPyWs c))).length < 50
    ∧ extractDocument (("a                                                            b").data)
        (("supreme/2024/y.md").data) ≠ none := by
  refine ⟨by decide, by decide⟩

/-- Claim C2 (corrected): for every input whose `strip()`-ed form has fewer
than 50 characters (rather than fewer than 50 non-whitespace characters),
`chunk_document` returns the empty chunk list and `extract_document` returns
`None`. -/
theorem chunk_floor_amended (text docId : Chars) (h : (strip text).length < 50) :
    chunkDocument text docId = [] ∧ extractDocument text docId = none := by
  constructor
  · rw [chunkDocument, if_pos h]
  · rw [extractDocument, if_pos h]

/-- Witness for the amended C2 theorem at a concrete input. -/
theorem chunk_floor_amended_witness :
    chunkDocument (("tiny doc").data) (("supreme/2024/y.md").data) = []
    ∧ extractDocument (("tiny doc").data) (("supreme/2024/y.md").data) = none :=
  chunk_floor_amended _ _ (by decide)

/-- Claim C6: all chunks produced by one `chunk_document` call carry the same
doc_id, title, court, year, court_level, subcourt, jurisdiction and cross_refs
(each equal to the corresponding per-document value, so they are identical
across the list), and the chunk_index values are exactly 0..n-1 in list
order. -/
theorem chunk_metadata_invariant (text docId : Chars) :
    ((chunkDocument text docId).map (fun c => c.chunk_index)
      = List.range (chunkDocument text docId).length)
    ∧ ∀ c ∈ chunkDocument text docId,
        c.doc_id = docId ∧ c.title = extractTitle text ∧ c.court = detectCourt docId ∧
        c.year = detectYear docId ∧ c.court_level = detectCourtLevel (detectCourt docId) ∧
        c.subcourt = detectSubcourt docId (detectCourt docId) ∧
        c.jurisdiction = extractJurisdiction text docId ∧
        c.cross_refs = extractCrossRefs text := by
  rw [chunkDocument]
  split
  · exact ⟨by simp, by intro c hc; simp at hc⟩
  · constructor
    · rw [buildChunksWith_map_index (fun k b => rfl), buildChunksWith_length,
        List.range_eq_range']
    · intro c hc
      obtain ⟨k, b, hb, hc'⟩ := buildChunksWith_mem hc
      subst hc'
      exact ⟨rfl, rfl, rfl, rfl, rfl, rfl, rfl, rfl⟩

/-- Witness for the C6 theorem at a concrete input (the second conjunct is
instantiated at the single chunk the document produces). -/
theorem chunk_metadata_invariant_witness :
    ((chunkDocument (("some legal text long enough to pass the fifty char floor").data)
        (("apofaseised/pol/2020/x.md").data)).map (fun c => c.chunk_index)
      = List.range (chunkDocument (("some legal text long enough to pass the fifty char floor").data)
        (("apofaseised/pol/2020/x.md").data)).length)
    ∧ (((chunkDocument (("some legal text long enough to pass the fifty char floor").data)
        (("apofaseised/pol/2020/x.md").data)).getLast (by decide)).doc_id
          = ("apofaseised/pol/2020/x.md").data
      ∧ ((chunkDocument (("some legal text long enough to pass the fifty char floor").data)
        (("apofaseised/pol/2020/x.md").data)).getLast (by decide)).title
          = extractTitle (("some legal text long enough to pass the fifty char floor").data)
      ∧ ((chunkDocument (("some legal text long enough to pass the fifty char floor").data)
        (("apofaseised/pol/2020/x.md").data)).getLast (by decide)).court
          = detectCourt (("apofaseised/pol/2020/x.md").data)
      ∧ ((chunkDocument (("some legal text long enough to pass the fifty char floor").data)
        (("apofaseised/pol/2020/x.md").data)).getLast (by decide)).year
          = detectYear (("apofaseised/pol/2020/x.md").data)
      ∧ ((chunkDocument (("some legal text long enough to pass the fifty char floor").data)
        (("apofaseised/pol/2020/x.md").data)).getLast (by decide)).court_level
          = detectCourtLevel (detectCourt (("apofaseised/pol/2020/x.md").data))
      ∧ ((chunkDocument (("some legal text long enough to pass the fifty char floor").data)
        (("apofaseised/pol/2020/x.md").data)).getLast (by decide)).subcourt
          = detectSubcourt (("apofaseised/pol/2020/x.md").data)
              (detectCourt (("apofaseised/pol/2020/x.md").data))
      ∧ ((chunkDocument (("some legal text long enough to pass the fifty char floor").data)
        (("apofaseised/pol/2020/x.md").data)).getLast (by decide)).jurisdiction
          = extractJurisdiction (("some legal text long enough to pass the fifty char floor").data)
              (("apofaseised/pol/2020/x.md").data)
      ∧ ((chunkDocument (("some legal text long enough to pass the fifty char floor").data)
        (("apofaseised/pol/2020/x.md").data)).getLast (by decide)).cross_refs
          = extractCrossRefs (("some legal text long enough to pass the fifty char floor").data)) :=
  ⟨(chunk_metadata_invariant _ _).1,
    (chunk_metadata_invariant _ _).2 _ (List.getLast_mem _)⟩

/-- Claim C5: whenever `chunk_document` returns at least two chunks, the last
chunk's body (the text after the contextual header and the blank-line
separator) has at least 500 characters: the tail-merge loop merges short tails
into the preceding chunk with a blank-line separator until the last chunk
reaches 500 characters or one chunk remains. -/
theorem tail_merge_min_length (text docId : Chars)
    (h2 : 2 ≤ (chunkDocument text docId).length) :
    (chunkHeader text docId).length + 502 ≤
      ((chunkDocument text docId).getLastD defaultChunk).text.length := by
  by_cases hguard : (strip text).length < 50
  · rw [chunkDocument, if_pos hguard] at h2
    simp at h2
  · rw [chunkDocument, if_neg hguard] at h2 ⊢
    rw [buildChunksWith_length] at h2
    have hne : chunkBodies text ≠ [] := by
      intro hnil
      rw [hnil] at h2
      simp at h2
    obtain ⟨k, b, hb, hlast⟩ := buildChunksWith_getLast? 0 (chunkBodies text) hne
    have hmt : 2 ≤ (mergeTail (splitTextModel (cleanChunkText (stripReferences text)))).length := h2
    obtain ⟨b', hb', h500⟩ := mergeTail_getLast hmt
    have hbb : b = b' := by
      have : some b = some b' := by rw [← hb, ← hb']; rfl
      exact Option.some_injective _ this
    subst hbb
    rw [List.getLastD_eq_getLast?, hlast]
    simp only [Option.getD_some]
    show (chunkHeader text docId).length + 502
      ≤ (chunkHeader text docId ++ '\n' :: '\n' :: b).length
    rw [List.length_append]
    simp only [List.length_cons]
    omega



/-! ### Helper lemmas: the cleaning pipeline fixes marker-free plain text
(used to build a two-chunk witness without evaluating a 2100-character list) -/

theorem dropWhile_eq_self_of_all {α : Type} {p : α → Bool} {l : List α}
    (h : ∀ c ∈ l, p c = false) : l.dropWhile p = l := by
  cases l with
  | nil => rfl
  | cons c rest =>
    rw [List.dropWhile_cons, if_neg]
    rw [h c (List.mem_cons_self _ _)]
    simp

theorem strip_eq_self_of_all {s : Chars} (h : ∀ c ∈ s, isPyWs c = false) : strip s = s := by
  rw [strip, lstrip, dropWhile_eq_self_of_all h, rstrip,
    dropWhile_eq_self_of_all (fun c hc => h c (List.mem_reverse.mp hc)), List.reverse_reverse]

theorem takeWhile_eq_nil_of_head {p : Char → Bool} {s : Chars}
    (h : ∀ c ∈ s, p c = false) : s.takeWhile p = [] := by
  cases s with
  | nil => rfl
  | cons c rest =>
    rw [List.takeWhile_cons, if_neg]
    rw [h c (List.mem_cons_self _ _)]
    simp

theorem matchStarsAt_none_of {m : Chars} {colon : Bool} {s : Chars} {c0 : Char}
    (hm : m.head? = some c0) (hs : ∀ c ∈ s, ¬ c = c0 ∧ ¬ c = '*') :
    matchStarsAt m colon s = none := by
  rw [matchStarsAt]
  split
  · next hcond =>
    exfalso
    obtain ⟨-, hpre⟩ := hcond
    have hj : (s.takeWhile (fun c => decide (c = '*'))).length = 0 := by
      rw [takeWhile_eq_nil_of_head (fun c hc => by simp [(hs c hc).2])]
      rfl
    rw [hj, List.drop_zero] at hpre
    have hmp : m <+: s := List.isPrefixOf_iff_prefix.mp hpre
    cases m with
    | nil => simp at hm
    | cons a m' =>
      simp only [List.head?_cons, Option.some_inj] at hm
      subst hm
      obtain ⟨t, ht⟩ := hmp
      have : a ∈ s := by rw [← ht]; exact List.mem_append_left _ (List.mem_cons_self _ _)
      exact (hs a this).1 rfl
  · rfl

theorem searchAux_none_of {f : Chars → Option Nat} :
    ∀ (s : Chars) (i : Nat), (∀ v : Chars, v <:+ s → f v = none) → searchAux f s i = none := by
  intro s
  induction s with
  | nil =>
    intro i h
    rw [searchAux, h [] List.nil_suffix]
  | cons c rest ih =>
    intro i h
    rw [searchAux, h (c :: rest) List.suffix_rfl]
    exact ih (i + 1) (fun v hv => h v (hv.trans (List.suffix_cons c rest)))

theorem matchLinkAt_none_of_head {c : Char} {rest : Chars} (hc : ¬ c = '[') :
    matchLinkAt (c :: rest) = none := by
  rw [matchLinkAt.eq_def]
  split
  · next heq =>
    exfalso
    injection heq with h1 h2
    exact hc h1
  · rfl

theorem hasLink_false_of {s : Chars} (h : ∀ c ∈ s, ¬ c = '[') : hasLink s = false := by
  induction s with
  | nil => rfl
  | cons c rest ih =>
    rw [hasLink, matchLinkAt_none_of_head (h c (List.mem_cons_self _ _))]
    exact ih (fun c hc => h c (List.mem_cons_of_mem _ hc))

theorem splitOnChar_of_not_mem {x : Char} {s : Chars} (h : ∀ c ∈ s, ¬ c = x) :
    splitOnChar x s = [s] := by
  induction s with
  | nil => rfl
  | cons c rest ih =>
    rw [splitOnChar]
    rw [if_neg (h c (List.mem_cons_self _ _))]
    rw [ih (fun c hc => h c (List.mem_cons_of_mem _ hc))]

theorem hasRunGo_not_mem {x : Char} {n : Nat} {s : Chars} (h : ¬ x ∈ s) :
    ∀ (r : Nat), hasRunGo x n r s = false := by
  induction s with
  | nil => intro r; rfl
  | cons c rest ih =>
    intro r
    rw [hasRunGo_cons_ne (fun hc => h (by rw [← hc]; exact List.mem_cons_self _ _))]
    exact ih (fun hx => h (List.mem_cons_of_mem _ hx)) 0

theorem stripReferences_eq_self_of_plain {s : Chars} (h : ∀ c ∈ s, c = 'a') :
    stripReferences s = s := by
  have hs : ∀ c ∈ s, ¬ c = 'Κ' ∧ ¬ c = '*' := fun c hc => by rw [h c hc]; exact ⟨by decide, by decide⟩
  have hs2 : ∀ c ∈ s, ¬ c = 'Α' ∧ ¬ c = '*' := fun c hc => by rw [h c hc]; exact ⟨by decide, by decide⟩
  have hrefs : refsSearch s = none := by
    rw [refsSearch, searchPat]
    exact searchAux_none_of s 0 (fun v hv =>
      matchStarsAt_none_of rfl (fun c hc => hs2 c (hv.subset hc)))
  have hbody : bodySearchColon s = none := by
    rw [bodySearchColon, searchPat]
    exact searchAux_none_of s 0 (fun v hv =>
      matchStarsAt_none_of rfl (fun c hc => hs c (hv.subset hc)))
  rw [stripReferences, hrefs, hbody]

theorem cleanChunkText_eq_self_of_plain {s : Chars} (hne : s ≠ []) (h : ∀ c ∈ s, c = 'a') :
    cleanChunkText s = s := by
  have hSH : removeStarsHash s = s :=
    removeStarsHash_eq_self (fun c hc => by rw [h c hc]; exact ⟨by decide, by decide⟩)
  have hLink : linkStrip s = s :=
    linkStrip_eq_self (hasLink_false_of (fun c hc => by rw [h c hc]; decide))
  have hC1 : removeC1 s = s := removeC1_eq_self (fun c hc => by rw [h c hc]; decide)
  have hNU : normalizeUnicode s = s :=
    normalizeUnicode_eq_self (fun c hc => by rw [h c hc]; exact ⟨by decide, by decide, by decide, by decide⟩)
  have hsplit : splitOnChar '\n' s = [s] :=
    splitOnChar_of_not_mem (fun c hc => by rw [h c hc]; decide)
  have hRR : removeRules s = s := by
    apply removeRules_eq_self
    intro l hl
    rw [hsplit] at hl
    rcases List.mem_cons.mp hl with hls | hls
    · subst hls
      cases hcase : l with
      | nil => exact absurd hcase hne
      | cons c rest =>
        rw [isRuleLine]
        have hall : (c :: rest).all (fun c => decide (c = '-') || decide (c = '_')) = false := by
          apply Bool.eq_false_iff.mpr
          intro hall
          rw [List.all_eq_true] at hall
          have hc := hall c (List.mem_cons_self _ _)
          have : c = 'a' := h c (by rw [hcase]; exact List.mem_cons_self _ _)
          subst this
          simp at hc
        rw [hall, Bool.and_false]
    · simp at hls
  have hNl : capRuns '\n' 2 s = s :=
    capRuns_eq_self (hasRunGo_not_mem (fun hx => by have := h _ hx; simp at this) 0)
  have hSp : capRuns ' ' 1 s = s :=
    capRuns_eq_self (hasRunGo_not_mem (fun hx => by have := h _ hx; simp at this) 0)
  have hStrip : strip s = s := strip_eq_self_of_all (fun c hc => by rw [h c hc]; decide)
  rw [cleanChunkText, hSH, hLink, hC1, hNU, hRR, hNl, hSp, hStrip]

theorem splitTextF_small : ∀ (fuel : Nat) (s : Chars), s.length ≤ 2000 →
    splitTextF fuel s = if s = [] then [] else [s] := by
  intro fuel s h
  cases fuel with
  | zero => rfl
  | succ fuel => rw [splitTextF, if_pos h]

theorem splitTextModel_two {s : Chars} (h1 : 2000 < s.length) (h2 : s.length ≤ 3600) :
    splitTextModel s = [s.take 2000, s.drop 1600] := by
  rw [splitTextModel]
  obtain ⟨f, hf⟩ : ∃ f, s.length = f + 1 := ⟨s.length - 1, by omega⟩
  rw [hf, splitTextF, if_neg (by omega)]
  rw [splitTextF_small f (s.drop 1600) (by rw [List.length_drop]; omega)]
  rw [if_neg]
  intro hnil
  have := congrArg List.length hnil
  rw [List.length_drop] at this
  simp at this
  omega

theorem mergeTail_pair {x y : Chars} (hy : ¬ y.length < 500) : mergeTail [x, y] = [x, y] := by
  rw [mergeTail]
  show (mergeTailRevF 2 [y, x]).reverse = [x, y]
  have hstep : mergeTailRevF 2 [y, x] = [y, x] := by
    show (if y.length < 500 then mergeTailRevF 1 ((x ++ '\n' :: '\n' :: y) :: []) else [y, x]) = [y, x]
    rw [if_neg hy]
  rw [hstep]
  rfl

theorem chunkDocument_replicate_two :
    2 ≤ (chunkDocument (List.replicate 2100 'a') (("supreme/2024/y.md").data)).length := by
  have hmem : ∀ c ∈ List.replicate 2100 'a', c = 'a' := fun c hc => List.eq_of_mem_replicate hc
  have hstrip : strip (List.replicate 2100 'a') = List.replicate 2100 'a' :=
    strip_eq_self_of_all (fun c hc => by rw [hmem c hc]; decide)
  rw [chunkDocument, if_neg (by rw [hstrip, List.length_replicate]; omega)]
  rw [buildChunksWith_length, chunkBodies]
  rw [stripReferences_eq_self_of_plain hmem]
  rw [cleanChunkText_eq_self_of_plain (List.length_pos.mp (by rw [List.length_replicate]; omega)) hmem]
  rw [splitTextModel_two (by rw [List.length_replicate]; omega) (by rw [List.length_replicate]; omega)]
  rw [mergeTail_pair (by rw [List.length_drop, List.length_replicate]; omega)]
  rfl

/-- Witness for the C5 theorem at a concrete input producing two chunks
(2100 plain characters split into a 2000-character chunk and a 500-character
tail, which the merge loop keeps because it is not below 500). -/
theorem tail_merge_min_length_witness :
    (chunkHeader (List.replicate 2100 'a') (("supreme/2024/y.md").data)).length + 502 ≤
      ((chunkDocument (List.replicate 2100 'a') (("supreme/2024/y.md").data)).getLastD
        defaultChunk).text.length :=
  tail_merge_min_length _ _ chunkDocument_replicate_two


/-! ### Claims C3 and C8 -/

/-- Claim C3: the four-case contract of `_strip_references`, phrased via the
leftmost matches of the two marker patterns (the semantics of `re.search`):
(1) with neither marker, text passes through unchanged; (2) with no REFERENCES
marker, the DECISION TEXT match alone is excised; (3) with a REFERENCES match
and the DECISION TEXT match after it, the result is the text before REFERENCES
joined by a blank line (omitted when that part is empty) to the text after the
DECISION TEXT match, each trimmed of the whitespace surrounding the excision;
(4) with a REFERENCES match and no DECISION TEXT match after it, everything
from REFERENCES onward is truncated (trailing whitespace trimmed). -/
theorem strip_references_contract (t : Chars) :
    (refsSearch t = none → bodySearchColon t = none → stripReferences t = t)
    ∧ (∀ bs blen, refsSearch t = none → bodySearchColon t = some (bs, blen) →
        stripReferences t = t.take bs ++ t.drop (bs + blen))
    ∧ (∀ rs rlen bs blen, refsSearch t = some (rs, rlen) →
        bodySearchColon t = some (bs, blen) → rs < bs →
        stripReferences t =
          (if rstrip (t.take rs) = [] then lstrip (t.drop (bs + blen))
           else rstrip (t.take rs) ++ '\n' :: '\n' :: lstrip (t.drop (bs + blen))))
    ∧ (∀ rs rlen, refsSearch t = some (rs, rlen) →
        (bodySearchColon t = none ∨
          ∃ bs blen, bodySearchColon t = some (bs, blen) ∧ bs ≤ rs) →
        stripReferences t = rstrip (t.take rs)) := by
  refine ⟨?_, ?_, ?_, ?_⟩
  · intro h1 h2
    simp only [stripReferences, h1, h2]
  · intro bs blen h1 h2
    simp only [stripReferences, h1, h2]
  · intro rs rlen bs blen h1 h2 hlt
    simp only [stripReferences, h1, h2]
    rw [if_pos hlt]
  · intro rs rlen h1 hb
    rcases hb with hb | ⟨bs, blen, hb, hle⟩
    · simp only [stripReferences, h1, hb]
    · simp only [stripReferences, h1, hb]
      rw [if_neg (by omega)]

/-- Witness for the C3 theorem: case (3) at a concrete document, where the
REFERENCES match starts at 3 and the DECISION TEXT match spans [17, 34). -/
theorem strip_references_contract_witness :
    stripReferences (("T\n\nΑΝΑΦΟΡΕΣ\nrefs\nΚΕΙΜΕΝΟ ΑΠΟΦΑΣΗΣ:\nbody").data)
      = ("T\n\nbody").data := by
  have h := (strip_references_contract
      (("T\n\nΑΝΑΦΟΡΕΣ\nrefs\nΚΕΙΜΕΝΟ ΑΠΟΦΑΣΗΣ:\nbody").data)).2.2.1
    3 8 17 17 (by decide) (by decide) (by decide)
  rw [h]
  decide

/-- Claim C8: `_extract_jurisdiction` first searches the document body — only
the first 30 lines after the ΚΕΙΜΕΝΟ ΑΠΟΦΑΣΗΣ marker, a line whose cleaned
form contains ΔΙΚΑΙΟΔΟΣΙΑ, as embodied in `jurisdictionFromBody` — and
returns that cleaned line when found; otherwise it falls back to the path
table, so a doc id containing `/pol/` with no in-body jurisdiction line yields
exactly ΠΟΛΙΤΙΚΗ ΔΙΚΑΙΟΔΟΣΙΑ; when no fallback key matches either, the
jurisdiction is the empty string. -/
theorem jurisdiction_extraction (text docId : Chars) :
    (∀ j, jurisdictionFromBody text = some j → extractJurisdiction text docId = j)
    ∧ (jurisdictionFromBody text = none → containsSubB (("/pol/").data) docId = true →
        extractJurisdiction text docId = ("ΠΟΛΙΤΙΚΗ ΔΙΚΑΙΟΔΟΣΙΑ").data)
    ∧ (jurisdictionFromBody text = none →
        (∀ kv ∈ jurisdictionFallback, containsSubB ('/' :: kv.1 ++ ['/']) docId = false) →
        extractJurisdiction text docId = []) := by
  refine ⟨?_, ?_, ?_⟩
  · intro j hj
    simp only [extractJurisdiction, hj]
  · intro hnone hpol
    simp only [extractJurisdiction, hnone, fallbackJurisdiction, jurisdictionFallback]
    rw [List.find?_cons_of_pos]
    have : ('/' :: (("pol").data) ++ ['/']) = ("/pol/").data := by decide
    rw [this]
    exact hpol
  · intro hnone hall
    simp only [extractJurisdiction, hnone, fallbackJurisdiction]
    rw [List.find?_eq_none.mpr]
    intro kv hkv
    rw [hall kv hkv]
    simp

/-- Witness for the C8 theorem: the path-fallback conjunct at a concrete
document with no in-body jurisdiction line and a `/pol/` path. -/
theorem jurisdiction_extraction_witness :
    extractJurisdiction (("plain document without any markers at all").data)
      (("apofaseised/pol/2020/x.md").data) = ("ΠΟΛΙΤΙΚΗ ΔΙΚΑΙΟΔΟΣΙΑ").data :=
  (jurisdiction_extraction (("plain document without any markers at all").data)
    (("apofaseised/pol/2020/x.md").data)).2.1 (by decide) (by decide)

/-! ### Helper lemmas: membership through splitting and tail-merging -/

theorem mem_splitTextF {ch : Char} :
    ∀ {fuel : Nat} {s p : Chars}, p ∈ splitTextF fuel s → ch ∈ p → ch ∈ s := by
  intro fuel
  induction fuel with
  | zero =>
    intro s p hp hch
    rw [splitTextF] at hp
    split at hp
    · simp at hp
    · rcases List.mem_cons.mp hp with h | h
      · subst h; exact hch
      · simp at h
  | succ fuel ih =>
    intro s p hp hch
    rw [splitTextF] at hp
    split at hp
    · split at hp
      · simp at hp
      · rcases List.mem_cons.mp hp with h | h
        · subst h; exact hch
        · simp at h
    · rcases List.mem_cons.mp hp with h | h
      · subst h; exact List.take_subset _ _ hch
      · exact List.drop_subset _ _ (ih h hch)

theorem mem_mergeTailRevF {ch : Char} :
    ∀ {fuel : Nat} {l : List Chars} {b : Chars}, b ∈ mergeTailRevF fuel l → ch ∈ b →
      (∃ p ∈ l, ch ∈ p) ∨ ch = '\n' := by
  intro fuel
  induction fuel with
  | zero =>
    intro l b hb hch
    rw [mergeTailRevF] at hb
    exact Or.inl ⟨b, hb, hch⟩
  | succ fuel ih =>
    intro l b hb hch
    rcases l with _ | ⟨last, _ | ⟨prev, rest⟩⟩
    · have h0 : mergeTailRevF (fuel + 1) ([] : List Chars) = [] := rfl
      rw [h0] at hb
      simp at hb
    · have h1 : mergeTailRevF (fuel + 1) [last] = [last] := rfl
      rw [h1] at hb
      exact Or.inl ⟨b, hb, hch⟩
    · have hred : mergeTailRevF (fuel + 1) (last :: prev :: rest)
          = if last.length < 500 then mergeTailRevF fuel ((prev ++ '\n' :: '\n' :: last) :: rest)
            else last :: prev :: rest := rfl
      rw [hred] at hb
      split at hb
      · rcases ih hb hch with ⟨p, hp, hchp⟩ | h
        · rcases List.mem_cons.mp hp with h' | h'
          · subst h'
            rcases List.mem_append.mp hchp with h2 | h2
            · exact Or.inl ⟨prev, List.mem_cons_of_mem _ (List.mem_cons_self _ _), h2⟩
            · rcases List.mem_cons.mp h2 with h3 | h3
              · exact Or.inr h3
              · rcases List.mem_cons.mp h3 with h4 | h4
                · exact Or.inr h4
                · exact Or.inl ⟨last, List.mem_cons_self _ _, h4⟩
          · exact Or.inl ⟨p, List.mem_cons_of_mem _ (List.mem_cons_of_mem _ h'), hchp⟩
        · exact Or.inr h
      · exact Or.inl ⟨b, hb, hch⟩

theorem mem_chunkBodies {text b : Chars} (hb : b ∈ chunkBodies text) {ch : Char}
    (hch : ch ∈ b) : ch ∈ cleanChunkText (stripReferences text) ∨ ch = '\n' := by
  rw [chunkBodies, mergeTail, List.mem_reverse] at hb
  rcases mem_mergeTailRevF hb hch with ⟨p, hp, hchp⟩ | h
  · rw [List.mem_reverse] at hp
    exact Or.inl (mem_splitTextF hp hchp)
  · exact Or.inr h

/-! ### Claims C4 and C10 -/

set_option maxRecDepth 20000 in
/-- Claim C4 counterexample: a chunk's `text` can contain an asterisk (via a
court id taken verbatim from an unmapped path), the ΑΝΑΦΟΡΕΣ token (a second
occurrence surviving in the decision body), and a full Markdown link match
(created when C1-byte removal joins `[a]` and `(b)`), refuting the claim as
stated. -/
theorem chunk_text_cleanliness_counterexample :
    ∃ c ∈ chunkDocument
        (("ΑΝΑΦΟΡΕΣ x ΚΕΙΜΕΝΟ ΑΠΟΦΑΣΗΣ\nbody with ΑΝΑΦΟΡΕΣ again and [a]\u0080(b) and padding aaaaaaaaaaaaaaaaaaaaaa").data)
        (("*/2020/x.md").data),
      '*' ∈ c.text ∧ containsSubB refsMarker c.text = true ∧ hasLink c.text = true := by
  decide

/-- Claim C4 (corrected): the cleanliness guarantee holds for the chunk body —
the portion of each chunk's `text` after the contextual header and blank-line
separator never contains an asterisk, a hash character, or a C1 control
character (0x80–0x9F).  The header may echo an unmapped court id verbatim, and
the ΑΝΑΦΟΡΕΣ token or link syntax can survive in edge cases, as the
counterexample shows. -/
theorem chunk_text_cleanliness_amended (text docId : Chars) (c : Chunk)
    (hc : c ∈ chunkDocument text docId) (ch : Char)
    (hch : ch ∈ c.text.drop ((chunkHeader text docId).length + 2)) :
    ch ≠ '*' ∧ ch ≠ '#' ∧ isC1 ch = false := by
  rw [chunkDocument] at hc
  split at hc
  · simp at hc
  · obtain ⟨k, b, hb, hceq⟩ := buildChunksWith_mem hc
    subst hceq
    have hch' : ch ∈ (chunkHeader text docId ++ '\n' :: '\n' :: b).drop
        ((chunkHeader text docId).length + 2) := hch
    have hsplit : chunkHeader text docId ++ '\n' :: '\n' :: b
        = (chunkHeader text docId ++ ['\n', '\n']) ++ b := by simp
    rw [hsplit] at hch'
    have hlen : (chunkHeader text docId ++ ['\n', '\n']).length
        = (chunkHeader text docId).length + 2 := by simp
    rw [← hlen, List.drop_left] at hch'
    rcases mem_chunkBodies hb hch' with h | h
    · exact cleanChunkText_chars h
    · subst h
      exact ⟨by decide, by decide, by decide⟩

set_option maxRecDepth 20000 in
/-- Witness for the amended C4 theorem: the character `t` occurs in the body
of the single chunk of a concrete document and satisfies the guarantee. -/
theorem chunk_text_cleanliness_amended_witness :
    't' ≠ '*' ∧ 't' ≠ '#' ∧ isC1 't' = false :=
  chunk_text_cleanliness_amended
    (("some legal body text that is long enough to pass the floor").data)
    (("supreme/2024/y.md").data)
    ((chunkDocument (("some legal body text that is long enough to pass the floor").data)
      (("supreme/2024/y.md").data)).getLast (by decide))
    (by decide) 't' (by decide)

/-- Claim C10: whenever both entry points produce output for the same
(text, doc id) input, every chunk of `chunk_document` agrees with the
`extract_document` record on the five shared metadata fields: court, year,
court_level, subcourt and jurisdiction. -/
theorem variants_agree (text docId : Chars) (r : DocumentRecord)
    (hr : extractDocument text docId = some r) (c : Chunk)
    (hc : c ∈ chunkDocument text docId) :
    c.court = r.court ∧ c.year = r.year ∧ c.court_level = r.court_level ∧
    c.subcourt = r.subcourt ∧ c.jurisdiction = r.jurisdiction := by
  rw [extractDocument] at hr
  split at hr
  · exact absurd hr (by simp)
  · split at hr
    · exact absurd hr (by simp)
    · injection hr with hr'
      subst hr'
      rw [chunkDocument] at hc
      split at hc
      · simp at hc
      · obtain ⟨k, b, hb, hceq⟩ := buildChunksWith_mem hc
        subst hceq
        exact ⟨rfl, rfl, rfl, rfl, rfl⟩

set_option maxRecDepth 20000 in
/-- Witness for the C10 theorem at a concrete input on which both variants
produce output. -/
theorem variants_agree_witness :
    ((chunkDocument (("some legal body text that is long enough, for the floor!").data)
        (("apofaseised/pol/2020/x.md").data)).getLast (by decide)).court
      = ((extractDocument (("some legal body text that is long enough, for the floor!").data)
        (("apofaseised/pol/2020/x.md").data)).get (by decide)).court
    ∧ ((chunkDocument (("some legal body text that is long enough, for the floor!").data)
        (("apofaseised/pol/2020/x.md").data)).getLast (by decide)).year
      = ((extractDocument (("some legal body text that is long enough, for the floor!").data)
        (("apofaseised/pol/2020/x.md").data)).get (by decide)).year
    ∧ ((chunkDocument (("some legal body text that is long enough, for the floor!").data)
        (("apofaseised/pol/2020/x.md").data)).getLast (by decide)).court_level
      = ((extractDocument (("some legal body text that is long enough, for the floor!").data)
        (("apofaseised/pol/2020/x.md").data)).get (by decide)).court_level
    ∧ ((chunkDocument (("some legal body text that is long enough, for the floor!").data)
        (("apofaseised/pol/2020/x.md").data)).getLast (by decide)).subcourt
      = ((extractDocument (("some legal body text that is long enough, for the floor!").data)
        (("apofaseised/pol/2020/x.md").data)).get (by decide)).subcourt
    ∧ ((chunkDocument (("some legal body text that is long enough, for the floor!").data)
        (("apofaseised/pol/2020/x.md").data)).getLast (by decide)).jurisdiction
      = ((extractDocument (("some legal body text that is long enough, for the floor!").data)
        (("apofaseised/pol/2020/x.md").data)).get (by decide)).jurisdiction :=
  variants_agree (("some legal body text that is long enough, for the floor!").data)
    (("apofaseised/pol/2020/x.md").data)
    ((extractDocument (("some legal body text that is long enough, for the floor!").data)
      (("apofaseised/pol/2020/x.md").data)).get (by decide))
    (by decide)
    ((chunkDocument (("some legal body text that is long enough, for the floor!").data)
      (("apofaseised/pol/2020/x.md").data)).getLast (by decide))
    (by decide)

end CyLaw
